import Mathlib

/-!
# CircularBuffer.h: a fixed-capacity double-ended ring buffer

Shallow embedding of the class template `CircularBuffer<T,S>` of
`src/CircularBuffer.h` and proofs about its member functions.

Conventions of the embedding.

* The element type `T` is the type variable `α`, the template constant `S`
  (the capacity) is the type index `S : Nat`.
* Memory is a total map from slot offsets to elements: slot `i` stands for the
  object `buffer[i]`, and the slots `0 .. S-1` are the array `T buffer[S]`.
* The pointers `head` and `tail` are kept as offsets from `buffer`, so
  `head == buffer` reads `head = 0` and `buffer + S` reads `S`.
* `count` is a `uint16_t` and `S` a `uint16_t` (or `uint8_t`), so `S ≤ 65535`.
  `count++` is executed only on the branch `count != S`; with `count ≤ S` this
  never wraps, and the embedding keeps `count` as a natural number.
* `operator[]` receives a `uint16_t` index and computes
  `(head - buffer + index) % S`. Where `int` has 32 bits the sum never wraps.
  Where `int` has 16 bits the sum is taken modulo 65536; an array there holds
  at most 32767 elements, so for `head < S` and `index < S` the sum stays below
  65536 as well. `opIndex` computes the sum over the natural numbers;
  `opIndexMachine` spells out the conversion of the argument to `uint16_t` and
  the modulus of the sum, and agrees with `opIndex` when neither wraps.
* A member function that returns a `T` yields an `Outcome`: either the call
  through the null function pointer (`crash`), carrying the object as it is at
  that instant, or the returned value together with the object afterwards.
-/

/-- State of an object of class `CircularBuffer<T,S>`: the storage block and the
three private fields `head`, `tail` (as offsets from `buffer`) and `count`. -/
structure CircularBuffer (α : Type) (S : Nat) where
  /-- Content of the slots; the slots below `S` are the array `T buffer[S]`. -/
  buffer : Nat → α
  /-- Offset `head - buffer`. -/
  head : Nat
  /-- Offset `tail - buffer`. -/
  tail : Nat
  /-- Field `count`. -/
  count : Nat

/-- Result of a call of a member function returning a `T`. -/
inductive Outcome (α : Type) (S : Nat) where
  /-- The call `crash()` through the null function pointer was reached; `st` is
  the object at that instant. -/
  | crash (st : CircularBuffer α S) : Outcome α S
  /-- The function returned `value` and left the object as `st`. -/
  | ret (value : α) (st : CircularBuffer α S) : Outcome α S

namespace CircularBuffer

variable {α : Type} {S : Nat}

/-- Assignment `*(buffer + i) = v` on the slot map. -/
def store (buf : Nat → α) (i : Nat) (v : α) : Nat → α :=
  fun j => if j = i then v else buf j

/-- Constructor `CircularBuffer()`: `head(buffer), tail(buffer), count(0)`.
The array is not initialised by the constructor; `mem` is whatever the storage
holds at that time. -/
def construct (mem : Nat → α) : CircularBuffer α S :=
  ⟨mem, 0, 0, 0⟩

/-- Member function `unshift` (lines 148-165). -/
def unshift (b : CircularBuffer α S) (value : α) : Bool × CircularBuffer α S :=
  -- if (head == buffer) head = buffer + S;
  let head1 := if b.head = 0 then S else b.head
  -- *--head = value;
  let head2 := head1 - 1
  let buf := store b.buffer head2 value
  if b.count = S then
    -- if (tail-- == buffer) tail = buffer + S - 1;
    let tail1 := if b.tail = 0 then S - 1 else b.tail - 1
    (false, ⟨buf, head2, tail1, b.count⟩)
  else
    -- if (count++ == 0) tail = head;
    let tail1 := if b.count = 0 then head2 else b.tail
    (true, ⟨buf, head2, tail1, b.count + 1⟩)

/-- Member function `push` (lines 167-184). -/
def push (b : CircularBuffer α S) (value : α) : Bool × CircularBuffer α S :=
  -- if (++tail == buffer + S) tail = buffer;
  let tail1 := b.tail + 1
  let tail2 := if tail1 = S then 0 else tail1
  -- *tail = value;
  let buf := store b.buffer tail2 value
  if b.count = S then
    -- if (++head == buffer + S) head = buffer;
    let head1 := b.head + 1
    let head2 := if head1 = S then 0 else head1
    (false, ⟨buf, head2, tail2, b.count⟩)
  else
    -- if (count++ == 0) head = tail;
    let head1 := if b.count = 0 then tail2 else b.head
    (true, ⟨buf, head1, tail2, b.count + 1⟩)

/-- Member function `shift` (lines 186-196). -/
def shift (b : CircularBuffer α S) : Outcome α S :=
  -- if (count <= 0) crash();
  if b.count ≤ 0 then Outcome.crash b
  else
    -- T result = *head++;
    let result := b.buffer b.head
    let head1 := b.head + 1
    -- if (head >= buffer + S) head = buffer;
    let head2 := if head1 ≥ S then 0 else head1
    -- count--;
    Outcome.ret result ⟨b.buffer, head2, b.tail, b.count - 1⟩

/-- Member function `pop` (lines 198-208). -/
def pop (b : CircularBuffer α S) : Outcome α S :=
  -- if (count <= 0) crash();
  if b.count ≤ 0 then Outcome.crash b
  else
    -- T result = *tail--;
    let result := b.buffer b.tail
    -- if (tail < buffer) tail = buffer + S - 1;
    -- the decrement leaves the array exactly when tail was buffer
    let tail1 := if b.tail = 0 then S - 1 else b.tail - 1
    -- count--;
    Outcome.ret result ⟨b.buffer, b.head, tail1, b.count - 1⟩

/-- Member function `first` (lines 210-213): `return *head;`. -/
def first (b : CircularBuffer α S) : Outcome α S :=
  Outcome.ret (b.buffer b.head) b

/-- Member function `last` (lines 215-218): `return *tail;`. -/
def last (b : CircularBuffer α S) : Outcome α S :=
  Outcome.ret (b.buffer b.tail) b

/-- Member function `operator []` (lines 220-223):
`return *(buffer + ((head - buffer + index) % S));`. -/
def opIndex (b : CircularBuffer α S) (index : Nat) : α :=
  b.buffer ((b.head + index) % S)

/-- Member function `size` (lines 225-228): `return count;`. -/
def size (b : CircularBuffer α S) : Nat :=
  b.count

/-- Member function `clear` (lines 250-255): `memset` writes zero bytes over the
array, that is over the slots below `S`, then `head = tail = buffer; count = 0;`. -/
def clear [Zero α] (b : CircularBuffer α S) : CircularBuffer α S :=
  ⟨fun i => if i < S then 0 else b.buffer i, 0, 0, 0⟩

/-- Logical contents of the buffer, front to back:
`[operator[](0), ..., operator[](size() - 1)]`. -/
def toList (b : CircularBuffer α S) : List α :=
  (List.range b.size).map b.opIndex

/-- States that a program can reach: a constructed object, then any calls of
the mutating member functions; `shift` and `pop` continue only when they
return. -/
inductive Reachable [Zero α] : CircularBuffer α S → Prop where
  | construct (mem : Nat → α) : Reachable (construct mem)
  | unshift (b : CircularBuffer α S) (v : α) : Reachable b → Reachable (b.unshift v).2
  | push (b : CircularBuffer α S) (v : α) : Reachable b → Reachable (b.push v).2
  | shift (b : CircularBuffer α S) (x : α) (b' : CircularBuffer α S) :
      Reachable b → b.shift = Outcome.ret x b' → Reachable b'
  | pop (b : CircularBuffer α S) (x : α) (b' : CircularBuffer α S) :
      Reachable b → b.pop = Outcome.ret x b' → Reachable b'
  | clear (b : CircularBuffer α S) : Reachable b → Reachable b.clear

/-- Relation between the cursors and the count that every reachable state of a
buffer of positive capacity satisfies. -/
def Inv (b : CircularBuffer α S) : Prop :=
  b.head < S ∧ b.tail < S ∧ b.count ≤ S ∧
    (0 < b.count → b.tail = (b.head + b.count - 1) % S)

end CircularBuffer

/-- Calls of the interface that a client can make in a run: `index i` is
`operator[](i)`. -/
inductive Op (α : Type) where
  | push (v : α) : Op α
  | unshift (v : α) : Op α
  | shift : Op α
  | pop : Op α
  | size : Op α
  | first : Op α
  | last : Op α
  | index (i : Nat) : Op α

/-- What the caller sees of one call: the `bool` of an insertion, the element
returned, the number returned by `size()`, or a failure. -/
inductive Obs (α : Type) where
  | flag (r : Bool) : Obs α
  | value (x : α) : Obs α
  | number (n : Nat) : Obs α
  | failure : Obs α
  deriving DecidableEq

namespace CircularBuffer

variable {α : Type} {S : Nat}

/-- Observation of a call that returns a `T`, and the object afterwards; the
call through the null function pointer does not return, so no object follows. -/
def observe : Outcome α S → Obs α × Option (CircularBuffer α S)
  | Outcome.crash _ => (Obs.failure, none)
  | Outcome.ret x st => (Obs.value x, some st)

/-- One call on the buffer: what is observed and the object afterwards. -/
def call (b : CircularBuffer α S) : Op α → Obs α × Option (CircularBuffer α S)
  | Op.push v => (Obs.flag (b.push v).1, some (b.push v).2)
  | Op.unshift v => (Obs.flag (b.unshift v).1, some (b.unshift v).2)
  | Op.shift => observe b.shift
  | Op.pop => observe b.pop
  | Op.size => (Obs.number b.size, some b)
  | Op.first => observe b.first
  | Op.last => observe b.last
  | Op.index i => (Obs.value (b.opIndex i), some b)

/-- Observations of a sequence of calls; the run ends at the first call that
does not return. -/
def run : CircularBuffer α S → List (Op α) → List (Obs α)
  | _, [] => []
  | b, op :: ops =>
    match call b op with
    | (o, some b') => o :: run b' ops
    | (o, none) => [o]

/-- Every `operator[](i)` of the sequence is made with `i < size()`. -/
def indexInRange : CircularBuffer α S → List (Op α) → Bool
  | _, [] => true
  | b, op :: ops =>
    (match op with
      | Op.index i => decide (i < b.size)
      | _ => true) &&
    (match (call b op).2 with
      | some b' => indexInRange b' ops
      | none => true)

/-- Every `first()` and `last()` of the sequence is made with `size() > 0`. -/
def peekNonEmpty : CircularBuffer α S → List (Op α) → Bool
  | _, [] => true
  | b, op :: ops =>
    (match op with
      | Op.first => decide (0 < b.size)
      | Op.last => decide (0 < b.size)
      | _ => true) &&
    (match (call b op).2 with
      | some b' => peekNonEmpty b' ops
      | none => true)

end CircularBuffer

/-! The model of the refinement claim, written from its words: a list of at
most `S` elements. -/
namespace BoundedDeque

variable {α : Type}

/-- Model `push`: appends; when the list already has `S` elements it drops the
first element and answers `false`. -/
def push (S : Nat) (l : List α) (v : α) : Bool × List α :=
  if l.length = S then (false, l.tail ++ [v]) else (true, l ++ [v])

/-- Model `unshift`: prepends; when the list is full it drops the last element
and answers `false`. -/
def unshift (S : Nat) (l : List α) (v : α) : Bool × List α :=
  if l.length = S then (false, v :: l.dropLast) else (true, v :: l)

/-- Model `shift`: removes and returns the first element, fails on the empty
list. -/
def shift : List α → Option (α × List α)
  | [] => none
  | x :: xs => some (x, xs)

/-- Model `pop`: removes and returns the last element, fails on the empty
list. -/
def pop (l : List α) : Option (α × List α) :=
  match l.getLast? with
  | none => none
  | some x => some (x, l.dropLast)

/-- Model `first`: the first element; the empty list has none, which is the
empty-buffer failure. -/
def first (l : List α) : Option α :=
  l.head?

/-- Model `last`: the last element; the empty list has none. -/
def last (l : List α) : Option α :=
  l.getLast?

/-- Model `size`. -/
def size (l : List α) : Nat :=
  l.length

/-- Model `at(i)`: the element at position `i`. -/
def index (l : List α) (i : Nat) : Option α :=
  l[i]?

/-- Observation of a model call that returns an element. -/
def observe : Option (α × List α) → Obs α × Option (List α)
  | none => (Obs.failure, none)
  | some (x, l) => (Obs.value x, some l)

/-- One call on the model. -/
def call (S : Nat) (l : List α) : Op α → Obs α × Option (List α)
  | Op.push v => (Obs.flag (push S l v).1, some (push S l v).2)
  | Op.unshift v => (Obs.flag (unshift S l v).1, some (unshift S l v).2)
  | Op.shift => observe (shift l)
  | Op.pop => observe (pop l)
  | Op.size => (Obs.number (size l), some l)
  | Op.first => observe ((first l).map (fun x => (x, l)))
  | Op.last => observe ((last l).map (fun x => (x, l)))
  | Op.index i => observe ((index l i).map (fun x => (x, l)))

/-- Observations of a sequence of calls on the model; the run ends at the
first failure. -/
def run (S : Nat) : List α → List (Op α) → List (Obs α)
  | _, [] => []
  | l, op :: ops =>
    match call S l op with
    | (o, some l') => o :: run S l' ops
    | (o, none) => [o]

end BoundedDeque

/-! The remaining member functions, the machine arithmetic of `operator []`, and
the call sequences that the later statements speak about. -/

/-- One insertion, at the back (`push`) or at the front (`unshift`). -/
inductive Insertion (α : Type) where
  | back (v : α) : Insertion α
  | front (v : α) : Insertion α

/-- Calls of the whole public interface: those of `Op` and the three remaining
read-only member functions. -/
inductive FullOp (α : Type) where
  | op (o : Op α) : FullOp α
  | available : FullOp α
  | isEmpty : FullOp α
  | isFull : FullOp α

namespace CircularBuffer

variable {α : Type} {S : Nat}

/-- Member function `available` (lines 230-233): `return S - count;`. The
difference is converted to the return type `uint16_t`, that is taken modulo
65536. -/
def available (b : CircularBuffer α S) : Nat :=
  (((S : Int) - (b.count : Int)) % 65536).toNat

/-- Member function `capacity` (lines 235-238): `return S;`. -/
def capacity (_b : CircularBuffer α S) : Nat :=
  S

/-- Member function `isEmpty` (lines 240-243): `return count == 0;`. -/
def isEmpty (b : CircularBuffer α S) : Bool :=
  decide (b.count = 0)

/-- Member function `isFull` (lines 245-248): `return count == S;`. -/
def isFull (b : CircularBuffer α S) : Bool :=
  decide (b.count = S)

/-- Member function `operator []` with the machine arithmetic spelled out.
`arg` is the value of the argument expression; it is converted to the parameter
type `uint16_t`. `W` is the modulus of `unsigned int` on the target: where `int`
has 16 bits, `head - buffer + index` is an `unsigned int` and `W` is 65536;
where `int` has 32 bits the sum is an `int` below 131072 and `W = 4294967296`
leaves it as it is. -/
def opIndexMachine (W : Nat) (b : CircularBuffer α S) (arg : Nat) : α :=
  let index := arg % 65536
  b.buffer (((b.head + index) % W) % S)

/-- The calls `push(x0)`, `push(x1)`, ... in turn: the answers and the object
afterwards. -/
def pushAll (b : CircularBuffer α S) : List α → List Bool × CircularBuffer α S
  | [] => ([], b)
  | x :: xs => ((b.push x).1 :: (pushAll (b.push x).2 xs).1, (pushAll (b.push x).2 xs).2)

/-- One insertion on the buffer. -/
def insert (b : CircularBuffer α S) : Insertion α → Bool × CircularBuffer α S
  | Insertion.back v => b.push v
  | Insertion.front v => b.unshift v

/-- A sequence of insertions in turn: the answers and the object afterwards. -/
def insertAll (b : CircularBuffer α S) : List (Insertion α) → List Bool × CircularBuffer α S
  | [] => ([], b)
  | i :: is =>
    ((b.insert i).1 :: (insertAll (b.insert i).2 is).1, (insertAll (b.insert i).2 is).2)

/-- One call of the whole public interface: what is observed and the object
afterwards. -/
def callFull (b : CircularBuffer α S) : FullOp α → Obs α × Option (CircularBuffer α S)
  | FullOp.op o => b.call o
  | FullOp.available => (Obs.number b.available, some b)
  | FullOp.isEmpty => (Obs.flag b.isEmpty, some b)
  | FullOp.isFull => (Obs.flag b.isFull, some b)

/-- Observations of a sequence of calls of the whole public interface; the run
stops at the first call that does not return. -/
def runFull : CircularBuffer α S → List (FullOp α) → List (Obs α)
  | _, [] => []
  | b, op :: ops =>
    match callFull b op with
    | (o, some b') => o :: runFull b' ops
    | (o, none) => [o]

/-- Every `first()` and `last()` of the sequence is made with `size() > 0` and
every `operator[](i)` with `i < size()`: the calls read stored elements only. -/
def readsStored : CircularBuffer α S → List (FullOp α) → Bool
  | _, [] => true
  | b, op :: ops =>
    (match op with
      | FullOp.op Op.first => decide (0 < b.size)
      | FullOp.op Op.last => decide (0 < b.size)
      | FullOp.op (Op.index i) => decide (i < b.size)
      | _ => true) &&
    (match (callFull b op).2 with
      | some b' => readsStored b' ops
      | none => true)

/-- One slot forward with wraparound, as `push` moves `tail` and `shift` moves
`head`. -/
def stepForward (S : Nat) (p : Nat) : Nat :=
  if p + 1 = S then 0 else p + 1

/-- Bounds of the three fields: `count` is at most `S` and both cursors point
into the array. -/
def InBounds (b : CircularBuffer α S) : Prop :=
  b.count ≤ S ∧ b.head < S ∧ b.tail < S

/-- Cursor relation of a non-empty buffer: `tail` is `count - 1` slots after
`head`, modulo `S`. -/
def CursorRel (b : CircularBuffer α S) : Prop :=
  0 < b.count → b.tail = (b.head + b.count - 1) % S

end CircularBuffer

/-! ## Arithmetic of the cursors and the invariant of reachable states -/

namespace CircularBuffer

variable {α : Type} {S : Nat}

theorem wrap_cases (x S : Nat) (h : x < 2 * S) :
    (x < S ∧ x % S = x) ∨ (S ≤ x ∧ x % S + S = x) := by
  rcases Nat.lt_or_ge x S with h1 | h1
  · exact Or.inl ⟨h1, Nat.mod_eq_of_lt h1⟩
  · refine Or.inr ⟨h1, ?_⟩
    have h2 : x - S < S := by omega
    rw [Nat.mod_eq_sub_mod h1, Nat.mod_eq_of_lt h2]
    omega

theorem inv_construct (hS : 0 < S) (mem : Nat → α) :
    Inv (construct mem : CircularBuffer α S) := by
  refine ⟨hS, hS, Nat.zero_le _, ?_⟩
  intro h
  exact absurd h (Nat.lt_irrefl 0)

theorem inv_clear [Zero α] (hS : 0 < S) (b : CircularBuffer α S) : Inv b.clear := by
  refine ⟨hS, hS, Nat.zero_le _, ?_⟩
  intro h
  exact absurd h (Nat.lt_irrefl 0)

/-- Under the invariant, the tail of a non-empty buffer is `count - 1` slots
after the head, in the case form that linear arithmetic can use. -/
theorem inv_tail_cases {b : CircularBuffer α S} (hI : Inv b) (hpos : 0 < b.count) :
    (b.head + b.count - 1 < S ∧ b.tail = b.head + b.count - 1) ∨
    (S ≤ b.head + b.count - 1 ∧ b.tail + S = b.head + b.count - 1) := by
  obtain ⟨hh, ht, hc, hrel⟩ := hI
  have hr := hrel hpos
  rcases wrap_cases (b.head + b.count - 1) S (by omega) with ⟨h1, h2⟩ | ⟨h1, h2⟩
  · left; exact ⟨h1, by omega⟩
  · right; exact ⟨h1, by omega⟩

theorem inv_of_cases {b : CircularBuffer α S} (hh : b.head < S) (ht : b.tail < S)
    (hc : b.count ≤ S)
    (hrel : 0 < b.count → (b.head + b.count - 1 < S ∧ b.tail = b.head + b.count - 1) ∨
      (S ≤ b.head + b.count - 1 ∧ b.tail + S = b.head + b.count - 1)) : Inv b := by
  refine ⟨hh, ht, hc, ?_⟩
  intro hpos
  rcases wrap_cases (b.head + b.count - 1) S (by omega) with ⟨h1, h2⟩ | ⟨h1, h2⟩ <;>
    rcases hrel hpos with ⟨h3, h4⟩ | ⟨h3, h4⟩ <;> omega

theorem inv_push (b : CircularBuffer α S) (v : α) (hI : Inv b) : Inv (b.push v).2 := by
  have hI' := hI
  obtain ⟨hh, ht, hc, -⟩ := hI'
  unfold push
  by_cases hfull : b.count = S
  · have hcases := inv_tail_cases hI (by omega)
    simp only [hfull, if_true]
    apply inv_of_cases
    · simp only []; split_ifs <;> omega
    · simp only []; split_ifs <;> omega
    · simp
    · intro _
      simp only []
      split_ifs <;> omega
  · have hcases := inv_tail_cases hI
    simp only [hfull, if_false]
    apply inv_of_cases
    · simp only []; split_ifs <;> omega
    · simp only []; split_ifs <;> omega
    · simp only []; omega
    · intro _
      simp only []
      split_ifs <;> omega

theorem inv_unshift (b : CircularBuffer α S) (v : α) (hI : Inv b) : Inv (b.unshift v).2 := by
  have hI' := hI
  obtain ⟨hh, ht, hc, -⟩ := hI'
  unfold unshift
  by_cases hfull : b.count = S
  · have hcases := inv_tail_cases hI (by omega)
    simp only [hfull, if_true]
    apply inv_of_cases
    · simp only []; split_ifs <;> omega
    · simp only []; split_ifs <;> omega
    · simp
    · intro _
      simp only []
      split_ifs <;> omega
  · have hcases := inv_tail_cases hI
    simp only [hfull, if_false]
    apply inv_of_cases
    · simp only []; split_ifs <;> omega
    · simp only []; split_ifs <;> omega
    · simp only []; omega
    · intro _
      simp only []
      split_ifs <;> omega

theorem inv_shift (b : CircularBuffer α S) (x : α) (b' : CircularBuffer α S)
    (hI : Inv b) (h : b.shift = Outcome.ret x b') : Inv b' := by
  have hI' := hI
  obtain ⟨hh, ht, hc, -⟩ := hI'
  unfold shift at h
  by_cases hz : b.count ≤ 0
  · simp [hz] at h
  · have hcases := inv_tail_cases hI (by omega)
    simp only [hz, if_false, Outcome.ret.injEq] at h
    obtain ⟨-, rfl⟩ := h
    apply inv_of_cases
    · simp only []; split_ifs <;> omega
    · simp only []; omega
    · simp only []; omega
    · intro _
      simp only [] at *
      split_ifs <;> omega

theorem inv_pop (b : CircularBuffer α S) (x : α) (b' : CircularBuffer α S)
    (hI : Inv b) (h : b.pop = Outcome.ret x b') : Inv b' := by
  have hI' := hI
  obtain ⟨hh, ht, hc, -⟩ := hI'
  unfold pop at h
  by_cases hz : b.count ≤ 0
  · simp [hz] at h
  · have hcases := inv_tail_cases hI (by omega)
    simp only [hz, if_false, Outcome.ret.injEq] at h
    obtain ⟨-, rfl⟩ := h
    apply inv_of_cases
    · simp only []; omega
    · simp only []; split_ifs <;> omega
    · simp only []; omega
    · intro _
      simp only [] at *
      split_ifs <;> omega

theorem reachable_inv [Zero α] (hS : 0 < S) {b : CircularBuffer α S} (hr : Reachable b) :
    Inv b := by
  induction hr with
  | construct mem => exact inv_construct hS mem
  | unshift b v _ ih => exact inv_unshift b v ih
  | push b v _ ih => exact inv_push b v ih
  | shift b x b' _ h ih => exact inv_shift b x b' ih h
  | pop b x b' _ h ih => exact inv_pop b x b' ih h
  | clear b _ _ => exact inv_clear hS b

theorem push_lt_spec {b : CircularBuffer α S} (hI : Inv b) (hlt : b.count < S) (v : α) :
    (b.push v).1 = true ∧ (b.push v).2.count = b.count + 1 ∧
    (∀ i, i < b.count → (b.push v).2.opIndex i = b.opIndex i) ∧
    (b.push v).2.opIndex b.count = v := by
  have hI' := hI
  obtain ⟨hh, ht, hc, -⟩ := hI'
  have hcases := inv_tail_cases hI
  have hne : b.count ≠ S := by omega
  refine ⟨?_, ?_, ?_, ?_⟩
  · simp only [push, hne, if_false]
  · simp only [push, hne, if_false]
  · intro i hi
    have hpos : 0 < b.count := by omega
    have hz : b.count ≠ 0 := by omega
    simp only [push, hne, opIndex, store, hz, if_false]
    rcases wrap_cases (b.head + i) S (by omega) with ⟨h1, h2⟩ | ⟨h1, h2⟩ <;>
      rw [if_neg] <;> split_ifs <;> omega
  · simp only [push, hne, if_false, opIndex, store]
    by_cases hz : b.count = 0
    · simp only [hz, if_true, Nat.add_zero]
      rw [if_pos]
      split_ifs
      · exact Nat.zero_mod S
      · exact Nat.mod_eq_of_lt (by omega)
    · simp only [hz, if_false]
      rw [if_pos]
      rcases wrap_cases (b.head + b.count) S (by omega) with ⟨h1, h2⟩ | ⟨h1, h2⟩ <;>
        split_ifs <;> omega

theorem push_full_spec {b : CircularBuffer α S} (hS : 0 < S) (hI : Inv b)
    (hfull : b.count = S) (v : α) :
    (b.push v).1 = false ∧ (b.push v).2.count = S ∧
    (∀ i, i + 1 < S → (b.push v).2.opIndex i = b.opIndex (i + 1)) ∧
    (b.push v).2.opIndex (S - 1) = v := by
  have hI' := hI
  obtain ⟨hh, ht, hc, -⟩ := hI'
  have hcases := inv_tail_cases hI (by omega)
  refine ⟨?_, ?_, ?_, ?_⟩
  · simp only [push, hfull, if_true]
  · simp only [push, hfull, if_true]
  · intro i hi
    simp only [push, hfull, if_true, opIndex, store]
    have e : ((if b.head + 1 = S then 0 else b.head + 1) + i) % S = (b.head + (i + 1)) % S := by
      by_cases h3 : b.head + 1 = S
      · rw [if_pos h3, Nat.zero_add, Nat.mod_eq_of_lt (show i < S by omega)]
        rcases wrap_cases (b.head + (i + 1)) S (by omega) with ⟨h1, h2⟩ | ⟨h1, h2⟩ <;> omega
      · rw [if_neg h3]
        congr 1
        omega
    rw [e]
    rcases wrap_cases (b.head + (i + 1)) S (by omega) with ⟨h1, h2⟩ | ⟨h1, h2⟩ <;>
      rw [if_neg] <;> split_ifs <;> omega
  · simp only [push, hfull, if_true, opIndex, store]
    rw [if_pos]
    by_cases h3 : b.head + 1 = S
    · rw [if_pos h3, Nat.zero_add, Nat.mod_eq_of_lt (show S - 1 < S by omega)]
      split_ifs <;> omega
    · rw [if_neg h3]
      rcases wrap_cases (b.head + 1 + (S - 1)) S (by omega) with ⟨h1, h2⟩ | ⟨h1, h2⟩ <;>
        split_ifs <;> omega

/-- Position arithmetic shared by both branches of `unshift`: the slot `i + 1`
places after the decremented head is the slot `i` places after the old head,
and it is not the slot just written. -/
theorem unshift_slot {h i S : Nat} (hh : h < S) (hi : i + 1 < S) :
    (((if h = 0 then S else h) - 1) + (i + 1)) % S = (h + i) % S ∧
    (h + i) % S ≠ (if h = 0 then S else h) - 1 := by
  by_cases h0 : h = 0
  · rw [if_pos h0]
    subst h0
    have e : S - 1 + (i + 1) = i + S := by omega
    rw [e, Nat.add_mod_right, Nat.zero_add, Nat.mod_eq_of_lt (show i < S by omega)]
    exact ⟨rfl, by omega⟩
  · rw [if_neg h0]
    have e : h - 1 + (i + 1) = h + i := by omega
    rw [e]
    refine ⟨rfl, ?_⟩
    rcases wrap_cases (h + i) S (by omega) with ⟨h1, h2⟩ | ⟨h1, h2⟩ <;> omega

theorem unshift_head_lt {h S : Nat} (hh : h < S) : (if h = 0 then S else h) - 1 < S := by
  split_ifs <;> omega

theorem unshift_lt_spec {b : CircularBuffer α S} (hI : Inv b) (hlt : b.count < S) (v : α) :
    (b.unshift v).1 = true ∧ (b.unshift v).2.count = b.count + 1 ∧
    (b.unshift v).2.opIndex 0 = v ∧
    (∀ i, i < b.count → (b.unshift v).2.opIndex (i + 1) = b.opIndex i) := by
  obtain ⟨hh, ht, hc, -⟩ := hI
  have hne : b.count ≠ S := by omega
  refine ⟨?_, ?_, ?_, ?_⟩
  · simp only [unshift, hne, if_false]
  · simp only [unshift, hne, if_false]
  · simp only [unshift, hne, if_false, opIndex, store, Nat.add_zero]
    rw [if_pos (Nat.mod_eq_of_lt (unshift_head_lt hh))]
  · intro i hi
    obtain ⟨e1, e2⟩ := unshift_slot hh (show i + 1 < S by omega)
    simp only [unshift, hne, if_false, opIndex, store]
    rw [e1, if_neg e2]

theorem unshift_full_spec {b : CircularBuffer α S} (hI : Inv b) (hfull : b.count = S) (v : α) :
    (b.unshift v).1 = false ∧ (b.unshift v).2.count = S ∧
    (b.unshift v).2.opIndex 0 = v ∧
    (∀ i, i + 1 < S → (b.unshift v).2.opIndex (i + 1) = b.opIndex i) := by
  obtain ⟨hh, ht, hc, -⟩ := hI
  refine ⟨?_, ?_, ?_, ?_⟩
  · simp only [unshift, hfull, if_true]
  · simp only [unshift, hfull, if_true]
  · simp only [unshift, hfull, if_true, opIndex, store, Nat.add_zero]
    rw [if_pos (Nat.mod_eq_of_lt (unshift_head_lt hh))]
  · intro i hi
    obtain ⟨e1, e2⟩ := unshift_slot hh hi
    simp only [unshift, hfull, if_true, opIndex, store]
    rw [e1, if_neg e2]

theorem shift_spec {b : CircularBuffer α S} (hI : Inv b) (hpos : 0 < b.count) :
    ∃ b', b.shift = Outcome.ret (b.opIndex 0) b' ∧ b'.count = b.count - 1 ∧
      (∀ i, i < b.count - 1 → b'.opIndex i = b.opIndex (i + 1)) := by
  obtain ⟨hh, ht, hc, -⟩ := hI
  have hz : ¬ b.count ≤ 0 := by omega
  refine ⟨⟨b.buffer, if b.head + 1 ≥ S then 0 else b.head + 1, b.tail, b.count - 1⟩, ?_, rfl, ?_⟩
  · simp only [shift, hz, if_false, opIndex, Nat.add_zero, Nat.mod_eq_of_lt hh]
  · intro i hi
    simp only [opIndex]
    congr 1
    by_cases h3 : b.head + 1 ≥ S
    · rw [if_pos h3, Nat.zero_add, Nat.mod_eq_of_lt (show i < S by omega)]
      rcases wrap_cases (b.head + (i + 1)) S (by omega) with ⟨h1, h2⟩ | ⟨h1, h2⟩ <;> omega
    · rw [if_neg h3]
      congr 1
      omega

theorem pop_spec {b : CircularBuffer α S} (hI : Inv b) (hpos : 0 < b.count) :
    ∃ b', b.pop = Outcome.ret (b.opIndex (b.count - 1)) b' ∧ b'.count = b.count - 1 ∧
      (∀ i, i < b.count - 1 → b'.opIndex i = b.opIndex i) := by
  have hI' := hI
  obtain ⟨hh, ht, hc, hrel⟩ := hI'
  have hz : ¬ b.count ≤ 0 := by omega
  refine ⟨⟨b.buffer, b.head, if b.tail = 0 then S - 1 else b.tail - 1, b.count - 1⟩, ?_, rfl, ?_⟩
  · have e : b.head + (b.count - 1) = b.head + b.count - 1 := by omega
    simp only [pop, hz, if_false, opIndex, e, ← hrel hpos]
  · intro i _
    rfl

theorem toList_length (b : CircularBuffer α S) : b.toList.length = b.count := by
  simp [toList, size]

theorem toList_getElem (b : CircularBuffer α S) (i : Nat) (h : i < b.toList.length) :
    b.toList[i] = b.opIndex i := by
  simp [toList]

theorem toList_getElem? (b : CircularBuffer α S) (i : Nat) (h : i < b.count) :
    b.toList[i]? = some (b.opIndex i) := by
  have h' : i < b.toList.length := by rw [toList_length]; exact h
  rw [List.getElem?_eq_getElem h', toList_getElem]

/-- Appending at the back, in terms of the logical contents. -/
theorem toList_append {b b' : CircularBuffer α S} {v : α} (hc : b'.count = b.count + 1)
    (hold : ∀ i, i < b.count → b'.opIndex i = b.opIndex i) (hnew : b'.opIndex b.count = v) :
    b'.toList = b.toList ++ [v] := by
  apply List.ext_getElem
  · simp [toList_length, hc]
  · intro i h1 h2
    rw [toList_getElem]
    rw [toList_length, hc] at h1
    by_cases hi : i < b.count
    · rw [List.getElem_append_left (by rw [toList_length]; exact hi), toList_getElem]
      exact hold i hi
    · have e : i = b.count := by omega
      subst e
      rw [List.getElem_append_right (by rw [toList_length])]
      simp [toList_length, hnew]

/-- Prepending at the front, in terms of the logical contents. -/
theorem toList_cons {b b' : CircularBuffer α S} {v : α} (hc : b'.count = b.count + 1)
    (hnew : b'.opIndex 0 = v) (hold : ∀ i, i < b.count → b'.opIndex (i + 1) = b.opIndex i) :
    b'.toList = v :: b.toList := by
  apply List.ext_getElem
  · simp [toList_length, hc]
  · intro i h1 h2
    rw [toList_getElem]
    rw [toList_length, hc] at h1
    cases i with
    | zero => simpa using hnew
    | succ j =>
      rw [List.getElem_cons_succ, toList_getElem]
      exact hold j (by omega)

/-- Removing the front element, in terms of the logical contents. -/
theorem toList_tail {b b' : CircularBuffer α S} (hc : b'.count = b.count - 1)
    (hold : ∀ i, i < b.count - 1 → b'.opIndex i = b.opIndex (i + 1)) :
    b'.toList = b.toList.tail := by
  apply List.ext_getElem
  · simp [toList_length, hc]
  · intro i h1 h2
    rw [toList_getElem, List.getElem_tail, toList_getElem]
    rw [toList_length, hc] at h1
    exact hold i h1

/-- Removing the back element, in terms of the logical contents. -/
theorem toList_dropLast {b b' : CircularBuffer α S} (hc : b'.count = b.count - 1)
    (hold : ∀ i, i < b.count - 1 → b'.opIndex i = b.opIndex i) :
    b'.toList = b.toList.dropLast := by
  apply List.ext_getElem
  · simp [toList_length, hc]
  · intro i h1 h2
    rw [toList_getElem, List.getElem_dropLast, toList_getElem]
    rw [toList_length, hc] at h1
    exact hold i h1

theorem push_count (b : CircularBuffer α S) (v : α) :
    (b.push v).2.count = if b.count = S then b.count else b.count + 1 := by
  by_cases h : b.count = S
  · simp only [push, h, if_true]
  · simp only [push, h, if_false]

theorem unshift_count (b : CircularBuffer α S) (v : α) :
    (b.unshift v).2.count = if b.count = S then b.count else b.count + 1 := by
  by_cases h : b.count = S
  · simp only [unshift, h, if_true]
  · simp only [unshift, h, if_false]

theorem shift_count {b b' : CircularBuffer α S} {x : α} (h : b.shift = Outcome.ret x b') :
    b'.count = b.count - 1 := by
  by_cases hz : b.count ≤ 0
  · simp [shift, hz] at h
  · simp only [shift, hz, if_false, Outcome.ret.injEq] at h
    obtain ⟨-, rfl⟩ := h
    rfl

theorem pop_count {b b' : CircularBuffer α S} {x : α} (h : b.pop = Outcome.ret x b') :
    b'.count = b.count - 1 := by
  by_cases hz : b.count ≤ 0
  · simp [pop, hz] at h
  · simp only [pop, hz, if_false, Outcome.ret.injEq] at h
    obtain ⟨-, rfl⟩ := h
    rfl

theorem reachable_count_le [Zero α] {b : CircularBuffer α S} (hr : Reachable b) :
    b.count ≤ S := by
  induction hr with
  | construct mem => exact Nat.zero_le _
  | unshift b v _ ih => rw [unshift_count]; split_ifs <;> omega
  | push b v _ ih => rw [push_count]; split_ifs <;> omega
  | shift b x b' _ h ih => rw [shift_count h]; omega
  | pop b x b' _ h ih => rw [pop_count h]; omega
  | clear b _ _ => exact Nat.zero_le _

theorem head_slot {b : CircularBuffer α S} (hI : Inv b) : b.buffer b.head = b.opIndex 0 := by
  simp only [opIndex, Nat.add_zero, Nat.mod_eq_of_lt hI.1]

theorem tail_slot {b : CircularBuffer α S} (hI : Inv b) (hpos : 0 < b.count) :
    b.buffer b.tail = b.opIndex (b.count - 1) := by
  have e : b.head + (b.count - 1) = b.head + b.count - 1 := by omega
  simp only [opIndex, e, ← hI.2.2.2 hpos]

theorem push_full_toList {b : CircularBuffer α S} (hS : 0 < S) (hI : Inv b)
    (hfull : b.count = S) (v : α) :
    (b.push v).2.toList = b.toList.tail ++ [v] := by
  obtain ⟨-, h2, h3, h4⟩ := push_full_spec hS hI hfull v
  apply List.ext_getElem
  · simp only [toList_length, h2, List.length_append, List.length_tail, List.length_singleton]
    omega
  · intro i hi1 hi2
    rw [toList_length, h2] at hi1
    rw [toList_getElem]
    have hlen : b.toList.tail.length = S - 1 := by
      rw [List.length_tail, toList_length, hfull]
    by_cases hi : i + 1 < S
    · rw [List.getElem_append_left (by rw [hlen]; omega), List.getElem_tail, toList_getElem]
      exact h3 i hi
    · have e : i = S - 1 := by omega
      subst e
      rw [List.getElem_append_right (by rw [hlen])]
      simp only [hlen, Nat.sub_self, List.getElem_cons_zero]
      exact h4

theorem unshift_full_toList {b : CircularBuffer α S} (hS : 0 < S) (hI : Inv b)
    (hfull : b.count = S) (v : α) :
    (b.unshift v).2.toList = v :: b.toList.dropLast := by
  obtain ⟨-, h2, h3, h4⟩ := unshift_full_spec hI hfull v
  apply List.ext_getElem
  · simp only [toList_length, h2, List.length_cons, List.length_dropLast]
    omega
  · intro i hi1 hi2
    rw [toList_length, h2] at hi1
    rw [toList_getElem]
    cases i with
    | zero => simpa using h3
    | succ j =>
      rw [List.getElem_cons_succ, List.getElem_dropLast, toList_getElem]
      exact h4 j hi1

theorem toList_eq_nil {b : CircularBuffer α S} (h : b.count = 0) : b.toList = [] := by
  apply List.eq_nil_of_length_eq_zero
  rw [toList_length, h]

theorem shift_toList {b : CircularBuffer α S} (hI : Inv b) (hpos : 0 < b.count) :
    ∃ b', b.shift = Outcome.ret (b.opIndex 0) b' ∧ Inv b' ∧
      b.toList = b.opIndex 0 :: b'.toList := by
  obtain ⟨b', h1, h2, h3⟩ := shift_spec hI hpos
  refine ⟨b', h1, inv_shift b _ b' hI h1, ?_⟩
  rw [toList_tail h2 h3]
  have hlen := toList_length b
  have h0 := toList_getElem b 0 (by rw [hlen]; exact hpos)
  cases hl : b.toList with
  | nil => rw [hl] at hlen; exact absurd hlen.symm (Nat.ne_of_gt hpos)
  | cons x xs =>
    simp only [hl, List.getElem_cons_zero] at h0
    rw [h0, List.tail_cons]

theorem pop_toList {b : CircularBuffer α S} (hI : Inv b) (hpos : 0 < b.count) :
    ∃ b', b.pop = Outcome.ret (b.opIndex (b.count - 1)) b' ∧ Inv b' ∧
      b.toList = b'.toList ++ [b.opIndex (b.count - 1)] := by
  obtain ⟨b', h1, h2, h3⟩ := pop_spec hI hpos
  refine ⟨b', h1, inv_pop b _ b' hI h1, ?_⟩
  refine @toList_append α S b' b _ ?_ ?_ ?_
  · omega
  · intro i hi
    exact (h3 i (by rw [← h2]; exact hi)).symm
  · rw [h2]

/-- One call on a buffer satisfying the invariant and the same call on the
model holding its logical contents give the same observation; either both runs
stop there, or the buffer afterwards satisfies the invariant and holds the
contents of the model afterwards. -/
theorem call_sim (hS : 0 < S) {b : CircularBuffer α S} (hI : Inv b) (op : Op α)
    (hidx : ∀ i, op = Op.index i → i < b.size)
    (hfirst : op = Op.first → 0 < b.size) (hlast : op = Op.last → 0 < b.size) :
    (∃ o, b.call op = (o, none) ∧ BoundedDeque.call S b.toList op = (o, none)) ∨
    (∃ o b', b.call op = (o, some b') ∧ Inv b' ∧
      BoundedDeque.call S b.toList op = (o, some b'.toList)) := by
  have hc : b.count ≤ S := hI.2.2.1
  cases op with
  | push v =>
    right
    refine ⟨_, _, rfl, inv_push b v hI, ?_⟩
    by_cases hfull : b.count = S
    · have h1 := (push_full_spec hS hI hfull v).1
      have h2 := push_full_toList hS hI hfull v
      simp only [BoundedDeque.call, BoundedDeque.push, toList_length, hfull, if_true, h1, h2]
    · obtain ⟨h1, h2, h3, h4⟩ := push_lt_spec hI (by omega) v
      have h5 := toList_append h2 h3 h4
      simp only [BoundedDeque.call, BoundedDeque.push, toList_length, hfull, if_false, h1, h5]
  | unshift v =>
    right
    refine ⟨_, _, rfl, inv_unshift b v hI, ?_⟩
    by_cases hfull : b.count = S
    · have h1 := (unshift_full_spec hI hfull v).1
      have h2 := unshift_full_toList hS hI hfull v
      simp only [BoundedDeque.call, BoundedDeque.unshift, toList_length, hfull, if_true, h1, h2]
    · obtain ⟨h1, h2, h3, h4⟩ := unshift_lt_spec hI (by omega) v
      have h5 := toList_cons h2 h3 h4
      simp only [BoundedDeque.call, BoundedDeque.unshift, toList_length, hfull, if_false, h1, h5]
  | shift =>
    by_cases hz : b.count = 0
    · left
      refine ⟨Obs.failure, ?_, ?_⟩
      · have hz' : b.count ≤ 0 := Nat.le_of_eq hz
        simp only [call, shift, hz', if_true, observe]
      · simp only [BoundedDeque.call, toList_eq_nil hz, BoundedDeque.shift, BoundedDeque.observe]
    · right
      obtain ⟨b', h1, h2, h3⟩ := shift_toList hI (Nat.pos_of_ne_zero hz)
      refine ⟨Obs.value (b.opIndex 0), b', ?_, h2, ?_⟩
      · simp only [call, h1, observe]
      · simp only [BoundedDeque.call, h3, BoundedDeque.shift, BoundedDeque.observe]
  | pop =>
    by_cases hz : b.count = 0
    · left
      refine ⟨Obs.failure, ?_, ?_⟩
      · have hz' : b.count ≤ 0 := Nat.le_of_eq hz
        simp only [call, pop, hz', if_true, observe]
      · simp [BoundedDeque.call, toList_eq_nil hz, BoundedDeque.pop, BoundedDeque.observe]
    · right
      obtain ⟨b', h1, h2, h3⟩ := pop_toList hI (Nat.pos_of_ne_zero hz)
      refine ⟨Obs.value (b.opIndex (b.count - 1)), b', ?_, h2, ?_⟩
      · simp only [call, h1, observe]
      · simp [BoundedDeque.call, h3, BoundedDeque.pop, BoundedDeque.observe]
  | size =>
    right
    refine ⟨_, _, rfl, hI, ?_⟩
    simp only [BoundedDeque.call, BoundedDeque.size, toList_length, size]
  | first =>
    right
    have hpos : 0 < b.count := hfirst rfl
    obtain ⟨b', -, -, h3⟩ := shift_toList hI hpos
    refine ⟨Obs.value (b.opIndex 0), b, ?_, hI, ?_⟩
    · simp only [call, first, observe, head_slot hI]
    · simp only [BoundedDeque.call, BoundedDeque.first]
      rw [h3]
      simp only [List.head?_cons, Option.map_some', BoundedDeque.observe]
  | last =>
    right
    have hpos : 0 < b.count := hlast rfl
    obtain ⟨b', -, -, h3⟩ := pop_toList hI hpos
    refine ⟨Obs.value (b.opIndex (b.count - 1)), b, ?_, hI, ?_⟩
    · simp only [call, last, observe, tail_slot hI hpos]
    · simp only [BoundedDeque.call, BoundedDeque.last]
      rw [h3]
      simp [BoundedDeque.observe]
  | index i =>
    right
    have hi : i < b.count := hidx i rfl
    refine ⟨_, _, rfl, hI, ?_⟩
    simp only [BoundedDeque.call, BoundedDeque.index, toList_getElem? b i hi, Option.map_some',
      BoundedDeque.observe]

/-- Runs of the buffer and of the model agree on every admissible sequence,
from any state satisfying the invariant. -/
theorem run_sim (hS : 0 < S) (ops : List (Op α)) :
    ∀ b : CircularBuffer α S, Inv b → b.indexInRange ops = true → b.peekNonEmpty ops = true →
      b.run ops = BoundedDeque.run S b.toList ops := by
  induction ops with
  | nil => intro b _ _ _; rfl
  | cons op ops ih =>
    intro b hI h1 h2
    simp only [indexInRange, Bool.and_eq_true] at h1
    simp only [peekNonEmpty, Bool.and_eq_true] at h2
    have hidx : ∀ i, op = Op.index i → i < b.size := by
      intro i e
      subst e
      simpa using h1.1
    have hfirst : op = Op.first → 0 < b.size := by
      intro e
      subst e
      simpa using h2.1
    have hlast : op = Op.last → 0 < b.size := by
      intro e
      subst e
      simpa using h2.1
    rcases call_sim hS hI op hidx hfirst hlast with ⟨o, e1, e2⟩ | ⟨o, b', e1, hI', e2⟩
    · simp only [run, BoundedDeque.run, e1, e2]
    · have h1' := h1.2
      have h2' := h2.2
      simp only [e1] at h1' h2'
      simp only [run, BoundedDeque.run, e1, e2, ih b' hI' h1' h2']

/-! ## The claims -/

/-- C1: on a reachable buffer that is not full, `push(v)` returns `true`, `size()`
grows by exactly one, `operator[](i)` is unchanged for every `i` below the old
size and `operator[](old size)` is `v`; the logical contents become the old
contents followed by `v`. -/
theorem c1_push_not_full [Zero α] (b : CircularBuffer α S) (hr : Reachable b) (v : α)
    (hnf : b.size < S) :
    (b.push v).1 = true ∧
    (b.push v).2.size = b.size + 1 ∧
    (∀ i, i < b.size → (b.push v).2.opIndex i = b.opIndex i) ∧
    (b.push v).2.opIndex b.size = v ∧
    (b.push v).2.toList = b.toList ++ [v] := by
  have hS : 0 < S := Nat.lt_of_le_of_lt (Nat.zero_le _) hnf
  obtain ⟨h1, h2, h3, h4⟩ := push_lt_spec (reachable_inv hS hr) hnf v
  exact ⟨h1, h2, h3, h4, toList_append h2 h3 h4⟩

theorem c1_push_not_full_witness :
    Reachable ((construct (fun _ => 0) : CircularBuffer Nat 3).push 1).2 ∧
    ((construct (fun _ => 0) : CircularBuffer Nat 3).push 1).2.size < 3 ∧
    ((((construct (fun _ => 0) : CircularBuffer Nat 3).push 1).2.push 2).1 = true ∧
     (((construct (fun _ => 0) : CircularBuffer Nat 3).push 1).2.push 2).2.toList =
       ((construct (fun _ => 0) : CircularBuffer Nat 3).push 1).2.toList ++ [2]) :=
  ⟨Reachable.push _ 1 (Reachable.construct _), by decide,
    (c1_push_not_full _ (Reachable.push _ 1 (Reachable.construct _)) 2 (by decide)).1,
    (c1_push_not_full _ (Reachable.push _ 1 (Reachable.construct _)) 2 (by decide)).2.2.2.2⟩

/-- C2: on a reachable full buffer, `push(v)` returns `false`, `size()` stays
`S`, and the logical contents lose their first element and gain `v` at the
back; afterwards `first()` returns the old second element (`v` when `S` is 1)
and `last()` returns `v`. -/
theorem c2_push_full [Zero α] (hS : 0 < S) (b : CircularBuffer α S) (hr : Reachable b)
    (v : α) (hfull : b.size = S) :
    (b.push v).1 = false ∧
    (b.push v).2.size = S ∧
    (b.push v).2.toList = b.toList.tail ++ [v] ∧
    (∀ i, i + 1 < S → (b.push v).2.opIndex i = b.opIndex (i + 1)) ∧
    (b.push v).2.opIndex (S - 1) = v ∧
    (b.push v).2.first = Outcome.ret (if S = 1 then v else b.opIndex 1) (b.push v).2 ∧
    (b.push v).2.last = Outcome.ret v (b.push v).2 := by
  have hI := reachable_inv hS hr
  have hI' := inv_push b v hI
  obtain ⟨h1, h2, h3, h4⟩ := push_full_spec hS hI hfull v
  have hl := push_full_toList hS hI hfull v
  refine ⟨h1, h2, hl, h3, h4, ?_, ?_⟩
  · simp only [first, head_slot hI']
    congr 1
    by_cases h1S : S = 1
    · rw [if_pos h1S]
      have e : (0 : Nat) = S - 1 := by omega
      rw [e]
      exact h4
    · rw [if_neg h1S]
      exact h3 0 (by omega)
  · have hpos : 0 < (b.push v).2.count := by
      have : (b.push v).2.count = S := h2
      omega
    simp only [last, tail_slot hI' hpos]
    congr 1
    have : (b.push v).2.count = S := h2
    rw [this]
    exact h4

theorem c2_push_full_witness :
    (0 < 3) ∧
    Reachable ((((construct (fun _ => 0) : CircularBuffer Nat 3).push 1).2.push 2).2.push 3).2 ∧
    ((((construct (fun _ => 0) : CircularBuffer Nat 3).push 1).2.push 2).2.push 3).2.size = 3 ∧
    ((((((construct (fun _ => 0) : CircularBuffer Nat 3).push 1).2.push 2).2.push 3).2.push 4).1
        = false ∧
     (((((construct (fun _ => 0) : CircularBuffer Nat 3).push 1).2.push 2).2.push 3).2.push 4).2.toList
        = ((((construct (fun _ => 0) : CircularBuffer Nat 3).push 1).2.push 2).2.push 3).2.toList.tail
            ++ [4]) :=
  ⟨by decide,
    Reachable.push _ 3 (Reachable.push _ 2 (Reachable.push _ 1 (Reachable.construct _))),
    by decide,
    (c2_push_full (by decide) _
      (Reachable.push _ 3 (Reachable.push _ 2 (Reachable.push _ 1 (Reachable.construct _))))
      4 (by decide)).1,
    (c2_push_full (by decide) _
      (Reachable.push _ 3 (Reachable.push _ 2 (Reachable.push _ 1 (Reachable.construct _))))
      4 (by decide)).2.2.1⟩

/-- C3 (counterexample): with capacity 1, the full buffer holding 5 answers
`operator[](1)` with 7 after `unshift(7)`, not with the old front element 5. -/
theorem c3_unshift_full_counterexample :
    Reachable ((construct (fun _ => 0) : CircularBuffer Nat 1).push 5).2 ∧
    ((construct (fun _ => 0) : CircularBuffer Nat 1).push 5).2.size = 1 ∧
    ((construct (fun _ => 0) : CircularBuffer Nat 1).push 5).2.opIndex 0 = 5 ∧
    ((((construct (fun _ => 0) : CircularBuffer Nat 1).push 5).2.unshift 7).2.opIndex 1 = 7) ∧
    ¬ ((((construct (fun _ => 0) : CircularBuffer Nat 1).push 5).2.unshift 7).2.opIndex 1 =
        ((construct (fun _ => 0) : CircularBuffer Nat 1).push 5).2.opIndex 0) :=
  ⟨Reachable.push _ 5 (Reachable.construct _), by decide, by decide, by decide, by decide⟩

/-- C3 (amended): on a reachable full buffer, `unshift(v)` returns `false`,
`size()` stays `S`, and the logical contents become `v` followed by the old
contents without their last element; `first()` returns `v`, and when `S` is at
least 2 the old front element is `operator[](1)`. On a fresh buffer of
capacity 3, `push(1)`, `push(2)`, `push(3)`, `unshift(0)` leave `size() == 3`
and the elements 0, 1, 2 at the indices 0, 1, 2. -/
theorem c3_unshift_full [Zero α] (hS : 0 < S) (b : CircularBuffer α S) (hr : Reachable b)
    (v : α) (hfull : b.size = S) :
    ((b.unshift v).1 = false ∧
     (b.unshift v).2.size = S ∧
     (b.unshift v).2.toList = v :: b.toList.dropLast ∧
     (b.unshift v).2.first = Outcome.ret v (b.unshift v).2 ∧
     (∀ i, i + 1 < S → (b.unshift v).2.opIndex (i + 1) = b.opIndex i) ∧
     (1 < S → (b.unshift v).2.opIndex 1 = b.opIndex 0)) ∧
    (∀ mem : Nat → Nat,
      ((((construct mem : CircularBuffer Nat 3).push 1).2.push 2).2.push 3).2.size = 3 ∧
      (((((construct mem : CircularBuffer Nat 3).push 1).2.push 2).2.push 3).2.unshift 0).1
        = false ∧
      (((((construct mem : CircularBuffer Nat 3).push 1).2.push 2).2.push 3).2.unshift 0).2.size
        = 3 ∧
      (((((construct mem : CircularBuffer Nat 3).push 1).2.push 2).2.push 3).2.unshift 0).2.opIndex 0
        = 0 ∧
      (((((construct mem : CircularBuffer Nat 3).push 1).2.push 2).2.push 3).2.unshift 0).2.opIndex 1
        = 1 ∧
      (((((construct mem : CircularBuffer Nat 3).push 1).2.push 2).2.push 3).2.unshift 0).2.opIndex 2
        = 2) := by
  have hI := reachable_inv hS hr
  have hI' := inv_unshift b v hI
  obtain ⟨h1, h2, h3, h4⟩ := unshift_full_spec hI hfull v
  refine ⟨⟨h1, h2, unshift_full_toList hS hI hfull v, ?_, h4, fun h => h4 0 h⟩, ?_⟩
  · simp only [first, head_slot hI', h3]
  · intro mem
    simp [construct, push, unshift, size, opIndex, store]

theorem c3_unshift_full_witness :
    (0 < 3) ∧
    Reachable ((((construct (fun _ => 0) : CircularBuffer Nat 3).push 1).2.push 2).2.push 3).2 ∧
    ((((construct (fun _ => 0) : CircularBuffer Nat 3).push 1).2.push 2).2.push 3).2.size = 3 ∧
    (((((construct (fun _ => 0) : CircularBuffer Nat 3).push 1).2.push 2).2.push 3).2.unshift 0).2.toList
       = 0 :: ((((construct (fun _ => 0) : CircularBuffer Nat 3).push 1).2.push 2).2.push 3).2.toList.dropLast :=
  ⟨by decide,
    Reachable.push _ 3 (Reachable.push _ 2 (Reachable.push _ 1 (Reachable.construct _))),
    by decide,
    (c3_unshift_full (by decide) _
      (Reachable.push _ 3 (Reachable.push _ 2 (Reachable.push _ 1 (Reachable.construct _))))
      0 (by decide)).1.2.2.1⟩

/-- C4: on a reachable buffer that is not full, `unshift(v)` returns `true`,
`size()` grows by exactly one, `operator[](0)` is `v` and `operator[](i+1)` is
the old `operator[](i)` for every `i` below the old size; the logical contents
become `v` followed by the old contents. -/
theorem c4_unshift_not_full [Zero α] (b : CircularBuffer α S) (hr : Reachable b) (v : α)
    (hnf : b.size < S) :
    (b.unshift v).1 = true ∧
    (b.unshift v).2.size = b.size + 1 ∧
    (b.unshift v).2.opIndex 0 = v ∧
    (∀ i, i < b.size → (b.unshift v).2.opIndex (i + 1) = b.opIndex i) ∧
    (b.unshift v).2.toList = v :: b.toList := by
  have hS : 0 < S := Nat.lt_of_le_of_lt (Nat.zero_le _) hnf
  obtain ⟨h1, h2, h3, h4⟩ := unshift_lt_spec (reachable_inv hS hr) hnf v
  exact ⟨h1, h2, h3, h4, toList_cons h2 h3 h4⟩

theorem c4_unshift_not_full_witness :
    Reachable ((construct (fun _ => 0) : CircularBuffer Nat 3).push 1).2 ∧
    ((construct (fun _ => 0) : CircularBuffer Nat 3).push 1).2.size < 3 ∧
    ((((construct (fun _ => 0) : CircularBuffer Nat 3).push 1).2.unshift 2).1 = true ∧
     (((construct (fun _ => 0) : CircularBuffer Nat 3).push 1).2.unshift 2).2.toList =
       2 :: ((construct (fun _ => 0) : CircularBuffer Nat 3).push 1).2.toList) :=
  ⟨Reachable.push _ 1 (Reachable.construct _), by decide,
    (c4_unshift_not_full _ (Reachable.push _ 1 (Reachable.construct _)) 2 (by decide)).1,
    (c4_unshift_not_full _ (Reachable.push _ 1 (Reachable.construct _)) 2 (by decide)).2.2.2.2⟩

/-- C5: on a reachable non-empty buffer, `shift()` returns what `operator[](0)`
returned before the call, `size()` decreases by exactly one, and afterwards
`operator[](i)` is the old `operator[](i+1)` for every `i` below the new size;
the logical contents lose exactly their first element. -/
theorem c5_shift_nonempty [Zero α] (b : CircularBuffer α S) (hr : Reachable b)
    (hne : 0 < b.size) :
    ∃ b', b.shift = Outcome.ret (b.opIndex 0) b' ∧
      b'.size + 1 = b.size ∧
      (∀ i, i < b'.size → b'.opIndex i = b.opIndex (i + 1)) ∧
      b.toList = b.opIndex 0 :: b'.toList := by
  have hS : 0 < S := Nat.lt_of_lt_of_le hne (reachable_count_le hr)
  obtain ⟨b', h1, h2, h3⟩ := shift_spec (reachable_inv hS hr) hne
  refine ⟨b', h1, ?_, ?_, ?_⟩
  · show b'.count + 1 = b.count
    have : 0 < b.count := hne
    omega
  · intro i hi
    exact h3 i (by rw [← h2]; exact hi)
  · rw [toList_tail h2 h3]
    have hlen := toList_length b
    have h0 := toList_getElem b 0 (by rw [hlen]; exact hne)
    cases hl : b.toList with
    | nil => rw [hl] at hlen; exact absurd hlen.symm (Nat.ne_of_gt hne)
    | cons x xs =>
      simp only [hl, List.getElem_cons_zero] at h0
      rw [h0, List.tail_cons]

theorem c5_shift_nonempty_witness :
    Reachable (((construct (fun _ => 0) : CircularBuffer Nat 3).push 1).2.push 2).2 ∧
    0 < (((construct (fun _ => 0) : CircularBuffer Nat 3).push 1).2.push 2).2.size ∧
    ∃ b', (((construct (fun _ => 0) : CircularBuffer Nat 3).push 1).2.push 2).2.shift =
        Outcome.ret ((((construct (fun _ => 0) : CircularBuffer Nat 3).push 1).2.push 2).2.opIndex 0) b' ∧
      b'.size + 1 = (((construct (fun _ => 0) : CircularBuffer Nat 3).push 1).2.push 2).2.size ∧
      (∀ i, i < b'.size → b'.opIndex i =
        (((construct (fun _ => 0) : CircularBuffer Nat 3).push 1).2.push 2).2.opIndex (i + 1)) ∧
      (((construct (fun _ => 0) : CircularBuffer Nat 3).push 1).2.push 2).2.toList =
        (((construct (fun _ => 0) : CircularBuffer Nat 3).push 1).2.push 2).2.opIndex 0 :: b'.toList :=
  ⟨Reachable.push _ 2 (Reachable.push _ 1 (Reachable.construct _)), by decide,
    c5_shift_nonempty _ (Reachable.push _ 2 (Reachable.push _ 1 (Reachable.construct _)))
      (by decide)⟩

/-- C6: on a reachable non-empty buffer, `pop()` returns what
`operator[](size() - 1)` returned before the call, `size()` decreases by exactly
one and `operator[](i)` is unchanged for every `i` below the new size; the
logical contents lose exactly their last element. -/
theorem c6_pop_nonempty [Zero α] (b : CircularBuffer α S) (hr : Reachable b)
    (hne : 0 < b.size) :
    ∃ b', b.pop = Outcome.ret (b.opIndex (b.size - 1)) b' ∧
      b'.size + 1 = b.size ∧
      (∀ i, i < b'.size → b'.opIndex i = b.opIndex i) ∧
      b.toList = b'.toList ++ [b.opIndex (b.size - 1)] := by
  have hS : 0 < S := Nat.lt_of_lt_of_le hne (reachable_count_le hr)
  obtain ⟨b', h1, h2, h3⟩ := pop_spec (reachable_inv hS hr) hne
  have hpos : 0 < b.count := hne
  refine ⟨b', h1, ?_, ?_, ?_⟩
  · show b'.count + 1 = b.count
    omega
  · intro i hi
    exact h3 i (by rw [← h2]; exact hi)
  · refine @toList_append α S b' b _ ?_ ?_ ?_
    · omega
    · intro i hi
      exact (h3 i (by rw [← h2]; exact hi)).symm
    · rw [h2]; rfl

theorem c6_pop_nonempty_witness :
    Reachable (((construct (fun _ => 0) : CircularBuffer Nat 3).push 1).2.push 2).2 ∧
    0 < (((construct (fun _ => 0) : CircularBuffer Nat 3).push 1).2.push 2).2.size ∧
    ∃ b', (((construct (fun _ => 0) : CircularBuffer Nat 3).push 1).2.push 2).2.pop =
        Outcome.ret ((((construct (fun _ => 0) : CircularBuffer Nat 3).push 1).2.push 2).2.opIndex
          ((((construct (fun _ => 0) : CircularBuffer Nat 3).push 1).2.push 2).2.size - 1)) b' ∧
      b'.size + 1 = (((construct (fun _ => 0) : CircularBuffer Nat 3).push 1).2.push 2).2.size ∧
      (∀ i, i < b'.size → b'.opIndex i =
        (((construct (fun _ => 0) : CircularBuffer Nat 3).push 1).2.push 2).2.opIndex i) ∧
      (((construct (fun _ => 0) : CircularBuffer Nat 3).push 1).2.push 2).2.toList =
        b'.toList ++ [(((construct (fun _ => 0) : CircularBuffer Nat 3).push 1).2.push 2).2.opIndex
          ((((construct (fun _ => 0) : CircularBuffer Nat 3).push 1).2.push 2).2.size - 1)] :=
  ⟨Reachable.push _ 2 (Reachable.push _ 1 (Reachable.construct _)), by decide,
    c6_pop_nonempty _ (Reachable.push _ 2 (Reachable.push _ 1 (Reachable.construct _)))
      (by decide)⟩

/-- C7: with `count == 0`, `shift()` and `pop()` reach the call through the null
function pointer instead of returning, and at that instant `head`, `tail`,
`count` and every storage slot are as they were before the call. -/
theorem c7_remove_on_empty (b : CircularBuffer α S) (h : b.count = 0) :
    b.shift = Outcome.crash b ∧ b.pop = Outcome.crash b ∧
    (∀ x st, b.shift ≠ Outcome.ret x st) ∧ (∀ x st, b.pop ≠ Outcome.ret x st) := by
  have hz : b.count ≤ 0 := Nat.le_of_eq h
  have h1 : b.shift = Outcome.crash b := by simp only [shift, hz, if_true]
  have h2 : b.pop = Outcome.crash b := by simp only [pop, hz, if_true]
  refine ⟨h1, h2, ?_, ?_⟩
  · intro x st hx
    rw [h1] at hx
    exact Outcome.noConfusion hx
  · intro x st hx
    rw [h2] at hx
    exact Outcome.noConfusion hx

theorem c7_remove_on_empty_witness :
    (construct (fun _ => 0) : CircularBuffer Nat 3).count = 0 ∧
    (construct (fun _ => 0) : CircularBuffer Nat 3).shift =
      Outcome.crash (construct (fun _ => 0)) ∧
    (construct (fun _ => 0) : CircularBuffer Nat 3).pop =
      Outcome.crash (construct (fun _ => 0)) :=
  ⟨rfl, (c7_remove_on_empty (construct (fun _ => 0)) rfl).1,
    (c7_remove_on_empty (construct (fun _ => 0)) rfl).2.1⟩

/-- C8 (counterexample): after `unshift(7)` and `pop()` on a fresh buffer of
capacity 3 the count is 0; `shift()` and `pop()` crash there, while `first()`
returns 7 and `last()` returns 0. -/
theorem c8_peek_on_empty_counterexample :
    ((construct (fun _ => 0) : CircularBuffer Nat 3).unshift 7).2.pop =
      Outcome.ret 7 ⟨store (fun _ => 0) 2 7, 2, 1, 0⟩ ∧
    (⟨store (fun _ => 0) 2 7, 2, 1, 0⟩ : CircularBuffer Nat 3).count = 0 ∧
    (⟨store (fun _ => 0) 2 7, 2, 1, 0⟩ : CircularBuffer Nat 3).shift =
      Outcome.crash ⟨store (fun _ => 0) 2 7, 2, 1, 0⟩ ∧
    (⟨store (fun _ => 0) 2 7, 2, 1, 0⟩ : CircularBuffer Nat 3).pop =
      Outcome.crash ⟨store (fun _ => 0) 2 7, 2, 1, 0⟩ ∧
    (⟨store (fun _ => 0) 2 7, 2, 1, 0⟩ : CircularBuffer Nat 3).first =
      Outcome.ret 7 ⟨store (fun _ => 0) 2 7, 2, 1, 0⟩ ∧
    (⟨store (fun _ => 0) 2 7, 2, 1, 0⟩ : CircularBuffer Nat 3).last =
      Outcome.ret 0 ⟨store (fun _ => 0) 2 7, 2, 1, 0⟩ ∧
    ¬ (∃ st, (⟨store (fun _ => 0) 2 7, 2, 1, 0⟩ : CircularBuffer Nat 3).first =
      Outcome.crash st) ∧
    ¬ (∃ st, (⟨store (fun _ => 0) 2 7, 2, 1, 0⟩ : CircularBuffer Nat 3).last =
      Outcome.crash st) := by
  refine ⟨rfl, rfl, rfl, rfl, rfl, rfl, ?_, ?_⟩
  · rintro ⟨st, h⟩
    exact Outcome.noConfusion h
  · rintro ⟨st, h⟩
    exact Outcome.noConfusion h

/-- C8 (amended): with `count == 0`, `first()` and `last()` do not fail: `first()`
returns the content of the slot `head` points to and `last()` the content of
the slot `tail` points to, and the object is unchanged. -/
theorem c8_peek_on_empty (b : CircularBuffer α S) (h : b.count = 0) :
    b.first = Outcome.ret (b.buffer b.head) b ∧
    b.last = Outcome.ret (b.buffer b.tail) b ∧
    (∀ st, b.first ≠ Outcome.crash st) ∧ (∀ st, b.last ≠ Outcome.crash st) ∧
    b.shift = Outcome.crash b ∧ b.pop = Outcome.crash b := by
  have hz : b.count ≤ 0 := Nat.le_of_eq h
  refine ⟨rfl, rfl, ?_, ?_, ?_, ?_⟩
  · intro st hx
    exact Outcome.noConfusion hx
  · intro st hx
    exact Outcome.noConfusion hx
  · simp only [shift, hz, if_true]
  · simp only [pop, hz, if_true]

theorem c8_peek_on_empty_witness :
    (construct (fun _ => 0) : CircularBuffer Nat 3).count = 0 ∧
    (construct (fun _ => 0) : CircularBuffer Nat 3).first =
      Outcome.ret 0 (construct (fun _ => 0)) ∧
    (construct (fun _ => 0) : CircularBuffer Nat 3).last =
      Outcome.ret 0 (construct (fun _ => 0)) :=
  ⟨rfl, (c8_peek_on_empty (construct (fun _ => 0)) rfl).1,
    (c8_peek_on_empty (construct (fun _ => 0)) rfl).2.1⟩

/-- C9: on a reachable non-empty buffer, `first()` returns `operator[](0)` and
`last()` returns `operator[](size() - 1)`, both leave the object exactly as it
was, and a following `shift()`, respectively `pop()`, returns that same
element. -/
theorem c9_peek_nonempty [Zero α] (b : CircularBuffer α S) (hr : Reachable b)
    (hne : 0 < b.size) :
    b.first = Outcome.ret (b.opIndex 0) b ∧
    b.last = Outcome.ret (b.opIndex (b.size - 1)) b ∧
    (∃ b', b.shift = Outcome.ret (b.opIndex 0) b') ∧
    (∃ b', b.pop = Outcome.ret (b.opIndex (b.size - 1)) b') := by
  have hS : 0 < S := Nat.lt_of_lt_of_le hne (reachable_count_le hr)
  have hI := reachable_inv hS hr
  obtain ⟨b1, h1, -⟩ := shift_spec hI hne
  obtain ⟨b2, h2, -⟩ := pop_spec hI hne
  refine ⟨?_, ?_, ⟨b1, h1⟩, ⟨b2, h2⟩⟩
  · simp only [first, head_slot hI]
  · simp only [last, tail_slot hI hne, size]

theorem c9_peek_nonempty_witness :
    Reachable (((construct (fun _ => 0) : CircularBuffer Nat 3).push 1).2.push 2).2 ∧
    0 < (((construct (fun _ => 0) : CircularBuffer Nat 3).push 1).2.push 2).2.size ∧
    (((construct (fun _ => 0) : CircularBuffer Nat 3).push 1).2.push 2).2.first =
      Outcome.ret ((((construct (fun _ => 0) : CircularBuffer Nat 3).push 1).2.push 2).2.opIndex 0)
        (((construct (fun _ => 0) : CircularBuffer Nat 3).push 1).2.push 2).2 ∧
    (((construct (fun _ => 0) : CircularBuffer Nat 3).push 1).2.push 2).2.last =
      Outcome.ret ((((construct (fun _ => 0) : CircularBuffer Nat 3).push 1).2.push 2).2.opIndex
          ((((construct (fun _ => 0) : CircularBuffer Nat 3).push 1).2.push 2).2.size - 1))
        (((construct (fun _ => 0) : CircularBuffer Nat 3).push 1).2.push 2).2 :=
  ⟨Reachable.push _ 2 (Reachable.push _ 1 (Reachable.construct _)), by decide,
    (c9_peek_nonempty _ (Reachable.push _ 2 (Reachable.push _ 1 (Reachable.construct _)))
      (by decide)).1,
    (c9_peek_nonempty _ (Reachable.push _ 2 (Reachable.push _ 1 (Reachable.construct _)))
      (by decide)).2.1⟩

/-- C10 (counterexample): the sequence `unshift(7)`, `pop()`, `first()` on a fresh
buffer of capacity 3 makes no `operator[]` call, the buffer answers the final
`first()` with the value 7 still held by the slot at `head`, and the model,
whose list is empty, fails; with 8 in place of 7 the buffer answers 8. -/
theorem c10_refinement_counterexample :
    (construct (fun _ => 0) : CircularBuffer Nat 3).indexInRange
      [Op.unshift 7, Op.pop, Op.first] = true ∧
    (construct (fun _ => 0) : CircularBuffer Nat 3).run [Op.unshift 7, Op.pop, Op.first] =
      [Obs.flag true, Obs.value 7, Obs.value 7] ∧
    BoundedDeque.run 3 ([] : List Nat) [Op.unshift 7, Op.pop, Op.first] =
      [Obs.flag true, Obs.value 7, Obs.failure] ∧
    (construct (fun _ => 0) : CircularBuffer Nat 3).run [Op.unshift 7, Op.pop, Op.first] ≠
      BoundedDeque.run 3 ([] : List Nat) [Op.unshift 7, Op.pop, Op.first] ∧
    (construct (fun _ => 0) : CircularBuffer Nat 3).run [Op.unshift 8, Op.pop, Op.first] =
      [Obs.flag true, Obs.value 8, Obs.value 8] :=
  ⟨by decide, by decide, by decide, by decide, by decide⟩

/-- C10 (amended): for every sequence of `push`, `unshift`, `shift`, `pop`,
`size`, `first`, `last` and `operator[](i)` applied to a freshly constructed
buffer of positive capacity in which every `operator[](i)` is made with
`i < size()` and every `first()` and `last()` with `size() > 0`, the returned
values and the failure are those of the bounded list model. On a fresh buffer of
capacity 4 the calls `push(10)`, `push(20)`, `shift()`, `push(30)`, `push(40)`,
`operator[](0)`, `operator[](2)`, `size()` answer `true`, `true`, 10, `true`,
`true`, 20, 40, 3. -/
theorem c10_refines_bounded_deque (hS : 0 < S) (mem : Nat → α) (ops : List (Op α))
    (hidx : (construct mem : CircularBuffer α S).indexInRange ops = true)
    (hpeek : (construct mem : CircularBuffer α S).peekNonEmpty ops = true) :
    (construct mem : CircularBuffer α S).run ops = BoundedDeque.run S [] ops ∧
    (∀ m : Nat → Nat,
      (construct m : CircularBuffer Nat 4).run
        [Op.push 10, Op.push 20, Op.shift, Op.push 30, Op.push 40,
          Op.index 0, Op.index 2, Op.size] =
        [Obs.flag true, Obs.flag true, Obs.value 10, Obs.flag true, Obs.flag true,
          Obs.value 20, Obs.value 40, Obs.number 3]) := by
  constructor
  · have h := run_sim hS ops (construct mem) (inv_construct hS mem) hidx hpeek
    rw [toList_eq_nil rfl] at h
    exact h
  · intro m
    have h := run_sim (show 0 < 4 by decide)
      [Op.push 10, Op.push 20, Op.shift, Op.push 30, Op.push 40,
        Op.index 0, Op.index 2, Op.size]
      (construct m : CircularBuffer Nat 4) (inv_construct (by decide) m) rfl rfl
    rw [toList_eq_nil rfl] at h
    rw [h]
    decide

theorem c10_refines_bounded_deque_witness :
    (0 < 4) ∧
    (construct (fun _ => 0) : CircularBuffer Nat 4).indexInRange
      [Op.push 10, Op.push 20, Op.shift, Op.push 30, Op.push 40,
        Op.index 0, Op.index 2, Op.size] = true ∧
    (construct (fun _ => 0) : CircularBuffer Nat 4).peekNonEmpty
      [Op.push 10, Op.push 20, Op.shift, Op.push 30, Op.push 40,
        Op.index 0, Op.index 2, Op.size] = true ∧
    (construct (fun _ => 0) : CircularBuffer Nat 4).run
      [Op.push 10, Op.push 20, Op.shift, Op.push 30, Op.push 40,
        Op.index 0, Op.index 2, Op.size] =
      BoundedDeque.run 4 []
        [Op.push 10, Op.push 20, Op.shift, Op.push 30, Op.push 40,
          Op.index 0, Op.index 2, Op.size] :=
  ⟨by decide, by decide, by decide,
    (c10_refines_bounded_deque (by decide) (fun _ => 0)
      [Op.push 10, Op.push 20, Op.shift, Op.push 30, Op.push 40,
        Op.index 0, Op.index 2, Op.size] (by decide) (by decide)).1⟩

/-- Pushing a list that fits: every answer is `true`, the invariant is kept and
the logical contents gain the list at the back. -/
theorem pushAll_spec (xs : List α) :
    ∀ b : CircularBuffer α S, Inv b → b.count + xs.length ≤ S →
      (b.pushAll xs).1 = List.replicate xs.length true ∧ Inv (b.pushAll xs).2 ∧
      (b.pushAll xs).2.toList = b.toList ++ xs := by
  induction xs with
  | nil =>
    intro b hI _
    exact ⟨rfl, hI, (List.append_nil _).symm⟩
  | cons x xs ih =>
    intro b hI hlen
    rw [List.length_cons] at hlen
    obtain ⟨h1, h2, h3, h4⟩ := push_lt_spec hI (show b.count < S by omega) x
    have hl := toList_append h2 h3 h4
    obtain ⟨r1, r2, r3⟩ := ih (b.push x).2 (inv_push b x hI) (by rw [h2]; omega)
    refine ⟨?_, r2, ?_⟩
    · simp only [pushAll, h1, r1, List.length_cons, List.replicate_succ]
    · simp only [pushAll, r3, hl, List.append_assoc, List.singleton_append]

/-- C11: on a freshly constructed buffer of positive capacity, pushing the values
of a list of length `k ≤ S` in turn returns `true` every time, leaves
`size() == k` and `operator[](i)` equal to the `i`-th value for every `i < k`. -/
theorem c11_push_sequence (hS : 0 < S) (mem : Nat → α) (xs : List α) (hk : xs.length ≤ S) :
    ((construct mem : CircularBuffer α S).pushAll xs).1 = List.replicate xs.length true ∧
    ((construct mem : CircularBuffer α S).pushAll xs).2.size = xs.length ∧
    (∀ i (h : i < xs.length),
      ((construct mem : CircularBuffer α S).pushAll xs).2.opIndex i = xs[i]) ∧
    ((construct mem : CircularBuffer α S).pushAll xs).2.toList = xs := by
  obtain ⟨h1, -, h3⟩ := pushAll_spec xs (construct mem : CircularBuffer α S)
    (inv_construct hS mem) (by simpa [construct] using hk)
  have hnil : (construct mem : CircularBuffer α S).toList = [] := toList_eq_nil rfl
  rw [hnil, List.nil_append] at h3
  have hlen : ((construct mem : CircularBuffer α S).pushAll xs).2.toList.length = xs.length := by
    rw [h3]
  refine ⟨h1, ?_, ?_, h3⟩
  · rw [← hlen, toList_length]; rfl
  · intro i h
    have h' : i < ((construct mem : CircularBuffer α S).pushAll xs).2.toList.length := by
      rw [hlen]; exact h
    rw [← toList_getElem _ i h']
    simp only [h3]

theorem c11_push_sequence_witness :
    (0 < 3) ∧ [4, 5, 6].length ≤ 3 ∧
    ((construct (fun _ => 0) : CircularBuffer Nat 3).pushAll [4, 5, 6]).1 =
      List.replicate [4, 5, 6].length true ∧
    ((construct (fun _ => 0) : CircularBuffer Nat 3).pushAll [4, 5, 6]).2.size = [4, 5, 6].length ∧
    ((construct (fun _ => 0) : CircularBuffer Nat 3).pushAll [4, 5, 6]).2.toList = [4, 5, 6] :=
  ⟨by decide, by decide,
    (c11_push_sequence (by decide) (fun _ => 0) [4, 5, 6] (by decide)).1,
    (c11_push_sequence (by decide) (fun _ => 0) [4, 5, 6] (by decide)).2.1,
    (c11_push_sequence (by decide) (fun _ => 0) [4, 5, 6] (by decide)).2.2.2⟩

/-- C12: on a reachable full buffer of positive capacity `shift()` returns, and
the `push(x)` that follows returns `true` and leaves `size() == S` with `x` as
the back element: `last()` and `operator[](S - 1)` return `x`, and the logical
contents are the old ones without their first element, followed by `x`. -/
theorem c12_shift_then_push [Zero α] (hS : 0 < S) (b : CircularBuffer α S)
    (hr : Reachable b) (hfull : b.size = S) (x : α) :
    ∃ y b1, b.shift = Outcome.ret y b1 ∧
      (b1.push x).1 = true ∧
      (b1.push x).2.size = S ∧
      (b1.push x).2.last = Outcome.ret x (b1.push x).2 ∧
      (b1.push x).2.opIndex (S - 1) = x ∧
      (b1.push x).2.toList = b.toList.tail ++ [x] := by
  have hI := reachable_inv hS hr
  have hc : b.count = S := hfull
  obtain ⟨b1, h1, hI1, hl⟩ := shift_toList hI (by omega)
  have hc1 : b1.count = b.count - 1 := shift_count h1
  obtain ⟨p1, p2, p3, p4⟩ := push_lt_spec hI1 (show b1.count < S by omega) x
  have hI2 := inv_push b1 x hI1
  have hsz : (b1.push x).2.count = S := by rw [p2]; omega
  refine ⟨b.opIndex 0, b1, h1, p1, hsz, ?_, ?_, ?_⟩
  · have hpos : 0 < (b1.push x).2.count := by omega
    simp only [last, tail_slot hI2 hpos]
    congr 1
    have e : (b1.push x).2.count - 1 = b1.count := by omega
    rw [e]
    exact p4
  · have e : S - 1 = b1.count := by omega
    rw [e]
    exact p4
  · rw [toList_append p2 p3 p4, hl, List.tail_cons]

theorem c12_shift_then_push_witness :
    (0 < 3) ∧
    Reachable ((((construct (fun _ => 0) : CircularBuffer Nat 3).push 1).2.push 2).2.push 3).2 ∧
    ((((construct (fun _ => 0) : CircularBuffer Nat 3).push 1).2.push 2).2.push 3).2.size = 3 ∧
    ∃ y b1, ((((construct (fun _ => 0) : CircularBuffer Nat 3).push 1).2.push 2).2.push 3).2.shift =
        Outcome.ret y b1 ∧
      (b1.push 9).1 = true ∧
      (b1.push 9).2.size = 3 ∧
      (b1.push 9).2.last = Outcome.ret 9 (b1.push 9).2 ∧
      (b1.push 9).2.opIndex (3 - 1) = 9 ∧
      (b1.push 9).2.toList =
        ((((construct (fun _ => 0) : CircularBuffer Nat 3).push 1).2.push 2).2.push 3).2.toList.tail
          ++ [9] :=
  ⟨by decide,
    Reachable.push _ 3 (Reachable.push _ 2 (Reachable.push _ 1 (Reachable.construct _))),
    by decide,
    c12_shift_then_push (by decide) _
      (Reachable.push _ 3 (Reachable.push _ 2 (Reachable.push _ 1 (Reachable.construct _))))
      (by decide) 9⟩

theorem available_eq (hS16 : S < 65536) (b : CircularBuffer α S) (hc : b.count ≤ S) :
    b.available = S - b.count := by
  unfold available
  omega

/-- A single insertion on a buffer that is not full: the answer is `true`, the
invariant is kept, the count grows by one and the old contents stay, with the
new value on one side. -/
theorem insert_lt_spec {b : CircularBuffer α S} (hI : Inv b) (hlt : b.count < S)
    (i : Insertion α) :
    (b.insert i).1 = true ∧ Inv (b.insert i).2 ∧ (b.insert i).2.count = b.count + 1 ∧
    ∃ s t, (b.insert i).2.toList = s ++ b.toList ++ t := by
  cases i with
  | back v =>
    obtain ⟨h1, h2, h3, h4⟩ := push_lt_spec hI hlt v
    refine ⟨h1, inv_push b v hI, h2, [], [v], ?_⟩
    simp only [insert, toList_append h2 h3 h4, List.nil_append]
  | front v =>
    obtain ⟨h1, h2, h3, h4⟩ := unshift_lt_spec hI hlt v
    refine ⟨h1, inv_unshift b v hI, h2, [v], [], ?_⟩
    simp only [insert, toList_cons h2 h3 h4, List.append_nil, List.singleton_append]

theorem insertAll_spec (ins : List (Insertion α)) :
    ∀ b : CircularBuffer α S, Inv b → b.count + ins.length ≤ S →
      (b.insertAll ins).1 = List.replicate ins.length true ∧
      (b.insertAll ins).2.count = b.count + ins.length ∧
      ∃ s t, (b.insertAll ins).2.toList = s ++ b.toList ++ t := by
  induction ins with
  | nil =>
    intro b _ _
    exact ⟨rfl, rfl, [], [], by simp [insertAll]⟩
  | cons i is ih =>
    intro b hI hlen
    rw [List.length_cons] at hlen
    obtain ⟨h1, h2, h3, s0, t0, h4⟩ := insert_lt_spec hI (show b.count < S by omega) i
    obtain ⟨r1, r2, s1, t1, r3⟩ := ih (b.insert i).2 h2 (by rw [h3]; omega)
    refine ⟨?_, ?_, s1 ++ s0, t0 ++ t1, ?_⟩
    · simp only [insertAll, h1, r1, List.length_cons, List.replicate_succ]
    · simp only [insertAll, r2, h3, List.length_cons]
      omega
    · simp only [insertAll, r3, h4, List.append_assoc]

/-- C13: in every reachable state of a buffer whose capacity is a `uint16_t`
value, `size() + available() == capacity()` and the subtraction `S - count`
does not go below zero; any `k ≤ available()` insertions by `push` or `unshift`
in any mix return `true` every time, grow `size()` by `k` and keep the old
logical contents as a contiguous part of the new ones; an insertion made when
`available() == 0` returns `false`. -/
theorem c13_available [Zero α] (hS16 : S < 65536) (b : CircularBuffer α S)
    (hr : Reachable b) :
    b.size + b.available = b.capacity ∧
    (0 : Int) ≤ (S : Int) - (b.count : Int) ∧
    (∀ ins : List (Insertion α), ins.length ≤ b.available →
      (b.insertAll ins).1 = List.replicate ins.length true ∧
      (b.insertAll ins).2.size = b.size + ins.length ∧
      ∃ s t, (b.insertAll ins).2.toList = s ++ b.toList ++ t) ∧
    (b.available = 0 → ∀ v, (b.push v).1 = false ∧ (b.unshift v).1 = false) := by
  have hc := reachable_count_le hr
  have ha := available_eq hS16 b hc
  refine ⟨?_, ?_, ?_, ?_⟩
  · show b.count + b.available = S
    omega
  · omega
  · intro ins hlen
    cases ins with
    | nil => exact ⟨rfl, rfl, [], [], by simp [insertAll]⟩
    | cons i is =>
      rw [List.length_cons] at hlen
      have hS : 0 < S := by omega
      exact insertAll_spec (i :: is) b (reachable_inv hS hr) (by rw [List.length_cons]; omega)
  · intro h0 v
    have hfull : b.count = S := by omega
    constructor
    · simp only [push, hfull, if_true]
    · simp only [unshift, hfull, if_true]

theorem c13_available_witness :
    (3 < 65536) ∧
    Reachable ((construct (fun _ => 0) : CircularBuffer Nat 3).push 1).2 ∧
    ((construct (fun _ => 0) : CircularBuffer Nat 3).push 1).2.size +
      ((construct (fun _ => 0) : CircularBuffer Nat 3).push 1).2.available =
      ((construct (fun _ => 0) : CircularBuffer Nat 3).push 1).2.capacity ∧
    [Insertion.front 7, Insertion.back 8].length ≤
      ((construct (fun _ => 0) : CircularBuffer Nat 3).push 1).2.available ∧
    (((construct (fun _ => 0) : CircularBuffer Nat 3).push 1).2.insertAll
      [Insertion.front 7, Insertion.back 8]).1 =
      List.replicate [Insertion.front 7, Insertion.back 8].length true :=
  ⟨by decide, Reachable.push _ 1 (Reachable.construct _),
    (c13_available (by decide) _ (Reachable.push _ 1 (Reachable.construct _))).1,
    by decide,
    ((c13_available (by decide) _ (Reachable.push _ 1 (Reachable.construct _))).2.2.1
      [Insertion.front 7, Insertion.back 8] (by decide)).1⟩

/-- C14 (counterexample): on the full capacity-3 buffer holding 1, 2, 3 (head at
slot 1), with 32-bit `int`, `operator[](65535)` returns 1 while the argument
`65535 + 3` is converted to the index 2 and returns 3; with 16-bit `int`,
`operator[](65535)` returns the content 3 of slot 0, while
`(head + index) mod S` is slot 1, which holds 1. -/
theorem c14_index_wrap_counterexample :
    ((((construct (fun _ => 0) : CircularBuffer Nat 3).push 1).2.push 2).2.push 3).2.head = 1 ∧
    opIndexMachine 4294967296
      ((((construct (fun _ => 0) : CircularBuffer Nat 3).push 1).2.push 2).2.push 3).2 65535 = 1 ∧
    opIndexMachine 4294967296
      ((((construct (fun _ => 0) : CircularBuffer Nat 3).push 1).2.push 2).2.push 3).2 (65535 + 3)
        = 3 ∧
    opIndexMachine 65536
      ((((construct (fun _ => 0) : CircularBuffer Nat 3).push 1).2.push 2).2.push 3).2 65535 = 3 ∧
    ((((construct (fun _ => 0) : CircularBuffer Nat 3).push 1).2.push 2).2.push 3).2.buffer
      ((1 + 65535) % 3) = 1 :=
  ⟨by decide, by decide, by decide, by decide, by decide⟩

/-- C14 (amended): for a buffer whose head lies inside the storage and an index
that is a `uint16_t` value for which `head + index` stays below the modulus of
`unsigned int`, `operator[](index)` returns the content of the storage slot
`(head + index) mod S`, a slot inside the storage, whatever `size()` is; and
it returns the same for `index + S` when that is a `uint16_t` value too and
`head + index + S` stays below the modulus. -/
theorem c14_index_wrap (W : Nat) (b : CircularBuffer α S) (index : Nat)
    (hh : b.head < S) (hi : index < 65536) (hW : b.head + index < W) :
    opIndexMachine W b index = b.buffer ((b.head + index) % S) ∧
    (b.head + index) % S < S ∧
    opIndexMachine W b index = b.opIndex index ∧
    (index + S < 65536 → b.head + (index + S) < W →
      opIndexMachine W b (index + S) = opIndexMachine W b index) := by
  have hS : 0 < S := Nat.lt_of_le_of_lt (Nat.zero_le _) hh
  have e1 : opIndexMachine W b index = b.buffer ((b.head + index) % S) := by
    simp only [opIndexMachine, Nat.mod_eq_of_lt hi, Nat.mod_eq_of_lt hW]
  refine ⟨e1, Nat.mod_lt _ hS, e1, ?_⟩
  intro h1 h2
  rw [e1]
  simp only [opIndexMachine, Nat.mod_eq_of_lt h1, Nat.mod_eq_of_lt h2]
  rw [← Nat.add_assoc, Nat.add_mod_right]

theorem c14_index_wrap_witness :
    ((((construct (fun _ => 0) : CircularBuffer Nat 3).push 1).2.push 2).2.push 3).2.head < 3 ∧
    (7 < 65536) ∧
    ((((construct (fun _ => 0) : CircularBuffer Nat 3).push 1).2.push 2).2.push 3).2.head + 7
      < 65536 ∧
    opIndexMachine 65536
      ((((construct (fun _ => 0) : CircularBuffer Nat 3).push 1).2.push 2).2.push 3).2 7 =
    ((((construct (fun _ => 0) : CircularBuffer Nat 3).push 1).2.push 2).2.push 3).2.buffer
      ((((((construct (fun _ => 0) : CircularBuffer Nat 3).push 1).2.push 2).2.push 3).2.head + 7)
        % 3) :=
  ⟨by decide, by decide, by decide,
    (c14_index_wrap 65536 _ 7 (by decide) (by decide) (by decide)).1⟩

/-- C15: after `clear()`, from any state of a buffer whose capacity is a
`uint16_t` value, `size() == 0`, `isEmpty()` is `true`, `isFull()` is `false`
when the capacity is positive, and `available() == capacity()`. -/
theorem c15_clear_observers [Zero α] (hS16 : S < 65536) (b : CircularBuffer α S) :
    b.clear.size = 0 ∧ b.clear.isEmpty = true ∧ (0 < S → b.clear.isFull = false) ∧
    b.clear.available = b.clear.capacity := by
  refine ⟨rfl, ?_, ?_, ?_⟩
  · simp [isEmpty, clear]
  · intro hS
    have hne : ¬ (0 = S) := by omega
    simp [isFull, clear, hne]
  · rw [available_eq hS16 b.clear (Nat.zero_le _)]
    rfl

theorem c15_clear_observers_witness :
    (3 < 65536) ∧
    ((((construct (fun _ => 0) : CircularBuffer Nat 3).push 1).2.push 2).2.clear.size = 0 ∧
     (((construct (fun _ => 0) : CircularBuffer Nat 3).push 1).2.push 2).2.clear.isEmpty = true ∧
     (((construct (fun _ => 0) : CircularBuffer Nat 3).push 1).2.push 2).2.clear.available =
       (((construct (fun _ => 0) : CircularBuffer Nat 3).push 1).2.push 2).2.clear.capacity) :=
  ⟨by decide,
    (c15_clear_observers (by decide) _).1,
    (c15_clear_observers (by decide) _).2.1,
    (c15_clear_observers (by decide) _).2.2.2⟩

theorem count_eq_of_toList_eq {b1 b2 : CircularBuffer α S} (h : b1.toList = b2.toList) :
    b1.count = b2.count := by
  rw [← toList_length b1, ← toList_length b2, h]

/-- One call of the whole interface that reads stored elements only gives the
same observation on two buffers satisfying the invariant and holding the same
logical contents; either both runs stop, or the two buffers afterwards again
satisfy the invariant and hold the same contents. -/
theorem callFull_congr (hS : 0 < S) {b1 b2 : CircularBuffer α S} (hI1 : Inv b1) (hI2 : Inv b2)
    (hl : b1.toList = b2.toList) (op : FullOp α)
    (hidx : ∀ i, op = FullOp.op (Op.index i) → i < b1.size)
    (hfirst : op = FullOp.op Op.first → 0 < b1.size)
    (hlast : op = FullOp.op Op.last → 0 < b1.size) :
    (∃ o, b1.callFull op = (o, none) ∧ b2.callFull op = (o, none)) ∨
    (∃ o b1' b2', b1.callFull op = (o, some b1') ∧ b2.callFull op = (o, some b2') ∧
      Inv b1' ∧ Inv b2' ∧ b1'.toList = b2'.toList) := by
  have hc : b1.count = b2.count := count_eq_of_toList_eq hl
  cases op with
  | op o =>
    have s1 := call_sim hS hI1 o (fun i e => hidx i (by rw [e]))
      (fun e => hfirst (by rw [e])) (fun e => hlast (by rw [e]))
    have s2 := call_sim hS hI2 o
      (fun i e => by
        have := hidx i (by rw [e])
        show i < b2.count
        rw [← hc]; exact this)
      (fun e => by
        have := hfirst (by rw [e])
        show 0 < b2.count
        rw [← hc]; exact this)
      (fun e => by
        have := hlast (by rw [e])
        show 0 < b2.count
        rw [← hc]; exact this)
    rw [← hl] at s2
    rcases s1 with ⟨o1, e1, m1⟩ | ⟨o1, b1', e1, hI1', m1⟩ <;>
      rcases s2 with ⟨o2, e2, m2⟩ | ⟨o2, b2', e2, hI2', m2⟩
    · left
      rw [m1] at m2
      have ho : o1 = o2 := (Prod.mk.inj m2).1
      subst ho
      exact ⟨o1, e1, e2⟩
    · rw [m1] at m2
      have := (Prod.mk.inj m2).2
      exact absurd this (by simp)
    · rw [m1] at m2
      have := (Prod.mk.inj m2).2
      exact absurd this (by simp)
    · right
      rw [m1] at m2
      have ho : o1 = o2 := (Prod.mk.inj m2).1
      have hl' : b1'.toList = b2'.toList := Option.some.inj (Prod.mk.inj m2).2
      subst ho
      exact ⟨o1, b1', b2', e1, e2, hI1', hI2', hl'⟩
  | available =>
    right
    refine ⟨Obs.number b1.available, b1, b2, rfl, ?_, hI1, hI2, hl⟩
    simp only [callFull, available, hc]
  | isEmpty =>
    right
    refine ⟨Obs.flag b1.isEmpty, b1, b2, rfl, ?_, hI1, hI2, hl⟩
    simp only [callFull, isEmpty, hc]
  | isFull =>
    right
    refine ⟨Obs.flag b1.isFull, b1, b2, rfl, ?_, hI1, hI2, hl⟩
    simp only [callFull, isFull, hc]

theorem runFull_congr (hS : 0 < S) (ops : List (FullOp α)) :
    ∀ b1 b2 : CircularBuffer α S, Inv b1 → Inv b2 → b1.toList = b2.toList →
      b1.readsStored ops = true → b1.runFull ops = b2.runFull ops := by
  induction ops with
  | nil => intro _ _ _ _ _ _; rfl
  | cons op ops ih =>
    intro b1 b2 hI1 hI2 hl h
    simp only [readsStored, Bool.and_eq_true] at h
    have hidx : ∀ i, op = FullOp.op (Op.index i) → i < b1.size := by
      intro i e
      subst e
      simpa using h.1
    have hfirst : op = FullOp.op Op.first → 0 < b1.size := by
      intro e
      subst e
      simpa using h.1
    have hlast : op = FullOp.op Op.last → 0 < b1.size := by
      intro e
      subst e
      simpa using h.1
    rcases callFull_congr hS hI1 hI2 hl op hidx hfirst hlast with
      ⟨o, e1, e2⟩ | ⟨o, b1', b2', e1, e2, hI1', hI2', hl'⟩
    · simp only [runFull, e1, e2]
    · have h' := h.2
      simp only [e1] at h'
      simp only [runFull, e1, e2, ih b1' b2' hI1' hI2' hl' h']

/-- C16 (counterexample): `first()` on a cleared buffer returns the zero value,
on a buffer just constructed over storage holding 5 it returns 5; likewise
`operator[](0)`. -/
theorem c16_clear_vs_fresh_counterexample :
    (((construct (fun _ => 5) : CircularBuffer Nat 3).push 1).2.clear).runFull
      [FullOp.op Op.first] = [Obs.value 0] ∧
    (construct (fun _ => 5) : CircularBuffer Nat 3).runFull
      [FullOp.op Op.first] = [Obs.value 5] ∧
    (((construct (fun _ => 5) : CircularBuffer Nat 3).push 1).2.clear).runFull
      [FullOp.op (Op.index 0)] = [Obs.value 0] ∧
    (construct (fun _ => 5) : CircularBuffer Nat 3).runFull
      [FullOp.op (Op.index 0)] = [Obs.value 5] ∧
    (((construct (fun _ => 5) : CircularBuffer Nat 3).push 1).2.clear).runFull
      [FullOp.op Op.first] ≠
    (construct (fun _ => 5) : CircularBuffer Nat 3).runFull [FullOp.op Op.first] :=
  ⟨by decide, by decide, by decide, by decide, by decide⟩

/-- C16 (amended): from any state, `clear()` sets `head` and `tail` to the start
of the storage, `count` to 0 and every slot of the array to the zero value;
and for every sequence of calls of the public interface that reads stored
elements only (`first()` and `last()` with `size() > 0`, `operator[](i)` with
`i < size()`), the results and the failure obtained on the cleared buffer are
those obtained on a buffer just built by the constructor, whatever its storage
holds. -/
theorem c16_clear_vs_fresh [Zero α] (hS : 0 < S) (b : CircularBuffer α S) (mem : Nat → α)
    (ops : List (FullOp α)) (hreads : b.clear.readsStored ops = true) :
    (b.clear.head = 0 ∧ b.clear.tail = 0 ∧ b.clear.count = 0 ∧
      ∀ i, i < S → b.clear.buffer i = 0) ∧
    b.clear.runFull ops = (construct mem : CircularBuffer α S).runFull ops := by
  refine ⟨⟨rfl, rfl, rfl, ?_⟩, ?_⟩
  · intro i hi
    simp only [clear, hi, if_true]
  · have h1 : b.clear.toList = [] := toList_eq_nil rfl
    have h2 : (construct mem : CircularBuffer α S).toList = [] := toList_eq_nil rfl
    exact runFull_congr hS ops b.clear (construct mem) (inv_clear hS b) (inv_construct hS mem)
      (by rw [h1, h2]) hreads

theorem c16_clear_vs_fresh_witness :
    (0 < 3) ∧
    (((construct (fun _ => 5) : CircularBuffer Nat 3).push 1).2.clear).readsStored
      [FullOp.op (Op.push 4), FullOp.op Op.first, FullOp.available, FullOp.op Op.shift,
        FullOp.op Op.shift, FullOp.isEmpty] = true ∧
    (((construct (fun _ => 5) : CircularBuffer Nat 3).push 1).2.clear).runFull
      [FullOp.op (Op.push 4), FullOp.op Op.first, FullOp.available, FullOp.op Op.shift,
        FullOp.op Op.shift, FullOp.isEmpty] =
    (construct (fun _ => 5) : CircularBuffer Nat 3).runFull
      [FullOp.op (Op.push 4), FullOp.op Op.first, FullOp.available, FullOp.op Op.shift,
        FullOp.op Op.shift, FullOp.isEmpty] :=
  ⟨by decide, by decide,
    (c16_clear_vs_fresh (by decide) _ (fun _ => 5)
      [FullOp.op (Op.push 4), FullOp.op Op.first, FullOp.available, FullOp.op Op.shift,
        FullOp.op Op.shift, FullOp.isEmpty] (by decide)).2⟩

theorem reachable_cursorRel [Zero α] {b : CircularBuffer α S} (hr : Reachable b) :
    CursorRel b := by
  intro hpos
  have hS : 0 < S := Nat.lt_of_lt_of_le hpos (reachable_count_le hr)
  exact (reachable_inv hS hr).2.2.2 hpos

/-- Stepping `n` times forward with wraparound from a slot inside the array
reaches the slot `(p + n) % S`. -/
theorem stepForward_iterate (hS : 0 < S) (p : Nat) (n : Nat) (hp : p < S) :
    (stepForward S)^[n] p = (p + n) % S := by
  induction n with
  | zero => simp [Nat.mod_eq_of_lt hp]
  | succ n ih =>
    rw [Function.iterate_succ_apply', ih]
    have hm : (p + n) % S < S := Nat.mod_lt _ hS
    have hd := Nat.div_add_mod (p + n) S
    have e : p + (n + 1) = S * ((p + n) / S) + ((p + n) % S + 1) := by omega
    rw [e, Nat.mul_add_mod]
    unfold stepForward
    by_cases h : (p + n) % S + 1 = S
    · rw [if_pos h, h, Nat.mod_self]
    · rw [if_neg h, Nat.mod_eq_of_lt (show (p + n) % S + 1 < S by omega)]

/-- C17: in every reachable state with `count > 0` the tail offset is
`(head + count - 1) mod S`, that is `count - 1` steps forward with wraparound
from `head` reach `tail`; the state after `push`, `unshift`, a returning
`shift`, a returning `pop` and `clear` satisfies the same relation. -/
theorem c17_cursor_count [Zero α] (b : CircularBuffer α S) (hr : Reachable b) :
    CursorRel b ∧
    (0 < b.count → (stepForward S)^[b.count - 1] b.head = b.tail) ∧
    (∀ v, CursorRel (b.push v).2) ∧
    (∀ v, CursorRel (b.unshift v).2) ∧
    (∀ x b', b.shift = Outcome.ret x b' → CursorRel b') ∧
    (∀ x b', b.pop = Outcome.ret x b' → CursorRel b') ∧
    CursorRel b.clear := by
  refine ⟨reachable_cursorRel hr, ?_, ?_, ?_, ?_, ?_, ?_⟩
  · intro hpos
    have hS : 0 < S := Nat.lt_of_lt_of_le hpos (reachable_count_le hr)
    have hI := reachable_inv hS hr
    rw [stepForward_iterate hS b.head (b.count - 1) hI.1, hI.2.2.2 hpos]
    congr 1
    omega
  · intro v
    exact reachable_cursorRel (Reachable.push b v hr)
  · intro v
    exact reachable_cursorRel (Reachable.unshift b v hr)
  · intro x b' h
    exact reachable_cursorRel (Reachable.shift b x b' hr h)
  · intro x b' h
    exact reachable_cursorRel (Reachable.pop b x b' hr h)
  · exact reachable_cursorRel (Reachable.clear b hr)

theorem c17_cursor_count_witness :
    Reachable (((construct (fun _ => 0) : CircularBuffer Nat 3).push 1).2.push 2).2 ∧
    CursorRel (((construct (fun _ => 0) : CircularBuffer Nat 3).push 1).2.push 2).2 ∧
    (0 < (((construct (fun _ => 0) : CircularBuffer Nat 3).push 1).2.push 2).2.count →
      (stepForward 3)^[(((construct (fun _ => 0) : CircularBuffer Nat 3).push 1).2.push 2).2.count - 1]
        (((construct (fun _ => 0) : CircularBuffer Nat 3).push 1).2.push 2).2.head =
      (((construct (fun _ => 0) : CircularBuffer Nat 3).push 1).2.push 2).2.tail) :=
  ⟨Reachable.push _ 2 (Reachable.push _ 1 (Reachable.construct _)),
    (c17_cursor_count _ (Reachable.push _ 2 (Reachable.push _ 1 (Reachable.construct _)))).1,
    (c17_cursor_count _ (Reachable.push _ 2 (Reachable.push _ 1 (Reachable.construct _)))).2.1⟩

/-- C18 (counterexample): on a fresh buffer of capacity 3, `push(1)` then `shift()`
leave `count == 0` with `head` at slot 2 and `tail` at slot 1. -/
theorem c18_empty_cursors_counterexample :
    ((construct (fun _ => 0) : CircularBuffer Nat 3).push 1).2.shift =
      Outcome.ret 1 ⟨store (fun _ => 0) 1 1, 2, 1, 0⟩ ∧
    Reachable (⟨store (fun _ => 0) 1 1, 2, 1, 0⟩ : CircularBuffer Nat 3) ∧
    (⟨store (fun _ => 0) 1 1, 2, 1, 0⟩ : CircularBuffer Nat 3).count = 0 ∧
    (⟨store (fun _ => 0) 1 1, 2, 1, 0⟩ : CircularBuffer Nat 3).head = 2 ∧
    (⟨store (fun _ => 0) 1 1, 2, 1, 0⟩ : CircularBuffer Nat 3).tail = 1 ∧
    (⟨store (fun _ => 0) 1 1, 2, 1, 0⟩ : CircularBuffer Nat 3).head ≠
      (⟨store (fun _ => 0) 1 1, 2, 1, 0⟩ : CircularBuffer Nat 3).tail :=
  ⟨rfl, Reachable.shift _ 1 _ (Reachable.push _ 1 (Reachable.construct _)) rfl,
    rfl, rfl, rfl, by decide⟩

theorem reachable_empty_cursors [Zero α] (hS : 0 < S) {b : CircularBuffer α S}
    (hr : Reachable b) (h0 : b.count = 0) :
    b.head = b.tail ∨ b.head = (b.tail + 1) % S := by
  cases hr with
  | construct mem => exact Or.inl rfl
  | unshift b0 v h =>
    have hc := reachable_count_le h
    rw [unshift_count] at h0
    split_ifs at h0
    all_goals omega
  | push b0 v h =>
    have hc := reachable_count_le h
    rw [push_count] at h0
    split_ifs at h0
    all_goals omega
  | shift b0 x _ h he =>
    have hI := reachable_inv hS h
    have hc := shift_count he
    by_cases hz : b0.count ≤ 0
    · simp [shift, hz] at he
    · have h1 : b0.count = 1 := by omega
      have ht := inv_tail_cases hI (by omega)
      have hh := hI.1
      have htl := hI.2.1
      simp only [shift, hz, if_false, Outcome.ret.injEq] at he
      obtain ⟨-, rfl⟩ := he
      right
      simp only []
      rcases wrap_cases (b0.tail + 1) S (by omega) with ⟨w1, w2⟩ | ⟨w1, w2⟩ <;>
        split_ifs <;> omega
  | pop b0 x _ h he =>
    have hI := reachable_inv hS h
    have hc := pop_count he
    by_cases hz : b0.count ≤ 0
    · simp [pop, hz] at he
    · have h1 : b0.count = 1 := by omega
      have ht := inv_tail_cases hI (by omega)
      have hh := hI.1
      simp only [pop, hz, if_false, Outcome.ret.injEq] at he
      obtain ⟨-, rfl⟩ := he
      right
      simp only []
      by_cases ht0 : b0.tail = 0
      · rw [if_pos ht0]
        have e : S - 1 + 1 = S := by omega
        rw [e, Nat.mod_self]
        omega
      · rw [if_neg ht0]
        have e : b0.tail - 1 + 1 = b0.tail := by omega
        rw [e, Nat.mod_eq_of_lt hI.2.1]
        omega
  | clear b0 h => exact Or.inl rfl

/-- C18 (amended): in every reachable state of a buffer of positive capacity with
`count == 0`, `head` and `tail` point into the array and `head` is either on the
slot of `tail` or one slot after it with wraparound; the next `push` or
`unshift` leaves `head` and `tail` on the same slot. -/
theorem c18_empty_cursors [Zero α] (hS : 0 < S) (b : CircularBuffer α S) (hr : Reachable b)
    (h0 : b.count = 0) :
    b.head < S ∧ b.tail < S ∧
    (b.head = b.tail ∨ b.head = (b.tail + 1) % S) ∧
    (∀ v, (b.push v).2.head = (b.push v).2.tail) ∧
    (∀ v, (b.unshift v).2.head = (b.unshift v).2.tail) := by
  have hI := reachable_inv hS hr
  have hne : ¬ (0 = S) := by omega
  refine ⟨hI.1, hI.2.1, reachable_empty_cursors hS hr h0, ?_, ?_⟩
  · intro v
    simp only [push, h0, hne, if_false, if_true]
  · intro v
    simp only [unshift, h0, hne, if_false, if_true]

theorem c18_empty_cursors_witness :
    (0 < 3) ∧
    Reachable (⟨store (fun _ => 0) 1 1, 2, 1, 0⟩ : CircularBuffer Nat 3) ∧
    (⟨store (fun _ => 0) 1 1, 2, 1, 0⟩ : CircularBuffer Nat 3).count = 0 ∧
    ((⟨store (fun _ => 0) 1 1, 2, 1, 0⟩ : CircularBuffer Nat 3).head =
        (⟨store (fun _ => 0) 1 1, 2, 1, 0⟩ : CircularBuffer Nat 3).tail ∨
      (⟨store (fun _ => 0) 1 1, 2, 1, 0⟩ : CircularBuffer Nat 3).head =
        ((⟨store (fun _ => 0) 1 1, 2, 1, 0⟩ : CircularBuffer Nat 3).tail + 1) % 3) :=
  ⟨by decide, Reachable.shift _ 1 _ (Reachable.push _ 1 (Reachable.construct _)) rfl, rfl,
    (c18_empty_cursors (by decide) (⟨store (fun _ => 0) 1 1, 2, 1, 0⟩ : CircularBuffer Nat 3)
      (Reachable.shift ((construct (fun _ => 0) : CircularBuffer Nat 3).push 1).2 1 _
        (Reachable.push _ 1 (Reachable.construct _)) rfl) rfl).2.2.1⟩

theorem inBounds_of_inv {b : CircularBuffer α S} (hI : Inv b) : InBounds b :=
  ⟨hI.2.2.1, hI.1, hI.2.1⟩

theorem push_buffer (b : CircularBuffer α S) (v : α) :
    (b.push v).2.buffer = store b.buffer (b.push v).2.tail v := by
  by_cases h : b.count = S
  · simp only [push, h, if_true]
  · simp only [push, h, if_false]

theorem unshift_buffer (b : CircularBuffer α S) (v : α) :
    (b.unshift v).2.buffer = store b.buffer (b.unshift v).2.head v := by
  by_cases h : b.count = S
  · simp only [unshift, h, if_true]
  · simp only [unshift, h, if_false]

theorem shift_reads {b b' : CircularBuffer α S} {x : α} (h : b.shift = Outcome.ret x b') :
    x = b.buffer b.head ∧ b'.buffer = b.buffer := by
  by_cases hz : b.count ≤ 0
  · simp [shift, hz] at h
  · simp only [shift, hz, if_false, Outcome.ret.injEq] at h
    obtain ⟨rfl, rfl⟩ := h
    exact ⟨rfl, rfl⟩

theorem pop_reads {b b' : CircularBuffer α S} {x : α} (h : b.pop = Outcome.ret x b') :
    x = b.buffer b.tail ∧ b'.buffer = b.buffer := by
  by_cases hz : b.count ≤ 0
  · simp [pop, hz] at h
  · simp only [pop, hz, if_false, Outcome.ret.injEq] at h
    obtain ⟨rfl, rfl⟩ := h
    exact ⟨rfl, rfl⟩

/-- C19: in every reachable state of a buffer of positive capacity, `count ≤ S`
and `head` and `tail` point into the array, and so they do after every
operation returns. `push` writes the slot of the new `tail` and `unshift` the
slot of the new `head`, both inside the array, and nothing else; `shift` and
`first` read the slot of `head`, `pop` and `last` the slot of `tail`;
`operator[]` reads the slot `(head + index) % S`, which is below `S`; `clear`
leaves every slot outside the array as it was. -/
theorem c19_bounds [Zero α] (hS : 0 < S) (b : CircularBuffer α S) (hr : Reachable b) :
    InBounds b ∧
    (∀ v, InBounds (b.push v).2 ∧
      (b.push v).2.buffer = store b.buffer (b.push v).2.tail v) ∧
    (∀ v, InBounds (b.unshift v).2 ∧
      (b.unshift v).2.buffer = store b.buffer (b.unshift v).2.head v) ∧
    (∀ x b', b.shift = Outcome.ret x b' →
      InBounds b' ∧ x = b.buffer b.head ∧ b'.buffer = b.buffer) ∧
    (∀ x b', b.pop = Outcome.ret x b' →
      InBounds b' ∧ x = b.buffer b.tail ∧ b'.buffer = b.buffer) ∧
    (b.first = Outcome.ret (b.buffer b.head) b ∧ b.last = Outcome.ret (b.buffer b.tail) b) ∧
    (∀ i, b.opIndex i = b.buffer ((b.head + i) % S) ∧ (b.head + i) % S < S) ∧
    (InBounds b.clear ∧ ∀ j, S ≤ j → b.clear.buffer j = b.buffer j) := by
  have hI := reachable_inv hS hr
  refine ⟨inBounds_of_inv hI, ?_, ?_, ?_, ?_, ⟨rfl, rfl⟩, ?_, ?_, ?_⟩
  · intro v
    exact ⟨inBounds_of_inv (inv_push b v hI), push_buffer b v⟩
  · intro v
    exact ⟨inBounds_of_inv (inv_unshift b v hI), unshift_buffer b v⟩
  · intro x b' h
    exact ⟨inBounds_of_inv (inv_shift b x b' hI h), shift_reads h⟩
  · intro x b' h
    exact ⟨inBounds_of_inv (inv_pop b x b' hI h), pop_reads h⟩
  · intro i
    exact ⟨rfl, Nat.mod_lt _ hS⟩
  · exact inBounds_of_inv (inv_clear hS b)
  · intro j hj
    have : ¬ j < S := by omega
    simp only [clear, this, if_false]

theorem c19_bounds_witness :
    (0 < 3) ∧
    Reachable (((construct (fun _ => 0) : CircularBuffer Nat 3).push 1).2.push 2).2 ∧
    InBounds (((construct (fun _ => 0) : CircularBuffer Nat 3).push 1).2.push 2).2 ∧
    (∀ v, InBounds ((((construct (fun _ => 0) : CircularBuffer Nat 3).push 1).2.push 2).2.push v).2 ∧
      ((((construct (fun _ => 0) : CircularBuffer Nat 3).push 1).2.push 2).2.push v).2.buffer =
        store (((construct (fun _ => 0) : CircularBuffer Nat 3).push 1).2.push 2).2.buffer
          ((((construct (fun _ => 0) : CircularBuffer Nat 3).push 1).2.push 2).2.push v).2.tail v) :=
  ⟨by decide, Reachable.push _ 2 (Reachable.push _ 1 (Reachable.construct _)),
    (c19_bounds (by decide) _
      (Reachable.push _ 2 (Reachable.push _ 1 (Reachable.construct _)))).1,
    (c19_bounds (by decide) _
      (Reachable.push _ 2 (Reachable.push _ 1 (Reachable.construct _)))).2.1⟩

theorem toList_congr {b b' : CircularBuffer α S} (hc : b'.count = b.count)
    (hold : ∀ i, i < b.count → b'.opIndex i = b.opIndex i) : b'.toList = b.toList := by
  apply List.ext_getElem
  · rw [toList_length, toList_length, hc]
  · intro i h1 h2
    rw [toList_getElem, toList_getElem]
    rw [toList_length] at h2
    exact hold i h2

/-- Insertion and removal at the back of a buffer that is not full. -/
theorem push_pop_lt {b : CircularBuffer α S} (hI : Inv b) (hlt : b.count < S) (x : α) :
    ∃ b1, (b.push x).2.pop = Outcome.ret x b1 ∧ b1.count = b.count ∧
      ∀ i, i < b.count → b1.opIndex i = b.opIndex i := by
  obtain ⟨-, p2, p3, p4⟩ := push_lt_spec hI hlt x
  obtain ⟨b1, q1, q2, q3⟩ := pop_spec (inv_push b x hI) (show 0 < (b.push x).2.count by omega)
  have e : (b.push x).2.count - 1 = b.count := by omega
  rw [e] at q1 q2 q3
  rw [p4] at q1
  exact ⟨b1, q1, q2, fun i hi => (q3 i hi).trans (p3 i hi)⟩

/-- Insertion and removal at the front of a buffer that is not full. -/
theorem unshift_shift_lt {b : CircularBuffer α S} (hI : Inv b) (hlt : b.count < S) (x : α) :
    ∃ b2, (b.unshift x).2.shift = Outcome.ret x b2 ∧ b2.count = b.count ∧
      ∀ i, i < b.count → b2.opIndex i = b.opIndex i := by
  obtain ⟨-, p2, p3, p4⟩ := unshift_lt_spec hI hlt x
  obtain ⟨b2, q1, q2, q3⟩ :=
    shift_spec (inv_unshift b x hI) (show 0 < (b.unshift x).2.count by omega)
  have e : (b.unshift x).2.count - 1 = b.count := by omega
  rw [e] at q2 q3
  rw [p3] at q1
  exact ⟨b2, q1, q2, fun i hi => (q3 i hi).trans (p4 i hi)⟩

/-- Insertion and removal at the back of a full buffer: the old first element is
gone. -/
theorem push_pop_full {b : CircularBuffer α S} (hS : 0 < S) (hI : Inv b)
    (hfull : b.count = S) (x : α) :
    ∃ b1, (b.push x).2.pop = Outcome.ret x b1 ∧ b1.count + 1 = b.count ∧
      b1.toList = b.toList.tail := by
  obtain ⟨-, p2, p3, p4⟩ := push_full_spec hS hI hfull x
  obtain ⟨b1, q1, q2, q3⟩ := pop_spec (inv_push b x hI) (show 0 < (b.push x).2.count by omega)
  rw [p2] at q1 q2 q3
  rw [p4] at q1
  refine ⟨b1, q1, by omega, ?_⟩
  apply toList_tail (by omega)
  intro i hi
  rw [hfull] at hi
  exact (q3 i hi).trans (p3 i (by omega))

/-- Insertion and removal at the front of a full buffer: the old last element is
gone. -/
theorem unshift_shift_full {b : CircularBuffer α S} (hS : 0 < S) (hI : Inv b)
    (hfull : b.count = S) (x : α) :
    ∃ b2, (b.unshift x).2.shift = Outcome.ret x b2 ∧ b2.count + 1 = b.count ∧
      b2.toList = b.toList.dropLast := by
  obtain ⟨-, p2, p3, p4⟩ := unshift_full_spec hI hfull x
  obtain ⟨b2, q1, q2, q3⟩ :=
    shift_spec (inv_unshift b x hI) (show 0 < (b.unshift x).2.count by omega)
  rw [p2] at q2 q3
  rw [p3] at q1
  refine ⟨b2, q1, by omega, ?_⟩
  apply toList_dropLast (by omega)
  intro i hi
  rw [hfull] at hi
  exact (q3 i hi).trans (p4 i (by omega))

theorem toList_ne_of_count_succ {b b' : CircularBuffer α S} (h : b'.count + 1 = b.count) :
    b'.toList ≠ b.toList := by
  intro e
  have := count_eq_of_toList_eq e
  omega

/-- C20: on a reachable buffer that is not full, `push(x)` followed by `pop()`
returns `x`, and `unshift(x)` followed by `shift()` returns `x`; in both cases
`size()` and `operator[](i)` for every `i < size()` are as before the two calls.
On a full buffer of positive capacity the removed value is still `x`, but the
size is one less than before: after `push`, `pop` the old first element is
missing, after `unshift`, `shift` the old last element. -/
theorem c20_insert_remove [Zero α] (b : CircularBuffer α S) (hr : Reachable b) (x : α) :
    (b.size < S →
      (∃ b1, (b.push x).2.pop = Outcome.ret x b1 ∧ b1.size = b.size ∧
        (∀ i, i < b.size → b1.opIndex i = b.opIndex i) ∧ b1.toList = b.toList) ∧
      (∃ b2, (b.unshift x).2.shift = Outcome.ret x b2 ∧ b2.size = b.size ∧
        (∀ i, i < b.size → b2.opIndex i = b.opIndex i) ∧ b2.toList = b.toList)) ∧
    (0 < S → b.size = S →
      (∃ b1, (b.push x).2.pop = Outcome.ret x b1 ∧ b1.size + 1 = b.size ∧
        b1.toList = b.toList.tail ∧ b1.toList ≠ b.toList) ∧
      (∃ b2, (b.unshift x).2.shift = Outcome.ret x b2 ∧ b2.size + 1 = b.size ∧
        b2.toList = b.toList.dropLast ∧ b2.toList ≠ b.toList)) := by
  constructor
  · intro hlt
    have hS : 0 < S := Nat.lt_of_le_of_lt (Nat.zero_le _) hlt
    have hI := reachable_inv hS hr
    obtain ⟨b1, a1, a2, a3⟩ := push_pop_lt hI hlt x
    obtain ⟨b2, c1, c2, c3⟩ := unshift_shift_lt hI hlt x
    exact ⟨⟨b1, a1, a2, a3, toList_congr a2 a3⟩, ⟨b2, c1, c2, c3, toList_congr c2 c3⟩⟩
  · intro hS hfull
    have hI := reachable_inv hS hr
    obtain ⟨b1, a1, a2, a3⟩ := push_pop_full hS hI hfull x
    obtain ⟨b2, c1, c2, c3⟩ := unshift_shift_full hS hI hfull x
    exact ⟨⟨b1, a1, a2, a3, toList_ne_of_count_succ a2⟩,
      ⟨b2, c1, c2, c3, toList_ne_of_count_succ c2⟩⟩

theorem c20_insert_remove_witness :
    Reachable (((construct (fun _ => 0) : CircularBuffer Nat 3).push 1).2.push 2).2 ∧
    (((construct (fun _ => 0) : CircularBuffer Nat 3).push 1).2.push 2).2.size < 3 ∧
    (∃ b1, ((((construct (fun _ => 0) : CircularBuffer Nat 3).push 1).2.push 2).2.push 9).2.pop =
        Outcome.ret 9 b1 ∧
      b1.size = (((construct (fun _ => 0) : CircularBuffer Nat 3).push 1).2.push 2).2.size ∧
      (∀ i, i < (((construct (fun _ => 0) : CircularBuffer Nat 3).push 1).2.push 2).2.size →
        b1.opIndex i =
          (((construct (fun _ => 0) : CircularBuffer Nat 3).push 1).2.push 2).2.opIndex i) ∧
      b1.toList = (((construct (fun _ => 0) : CircularBuffer Nat 3).push 1).2.push 2).2.toList) :=
  ⟨Reachable.push _ 2 (Reachable.push _ 1 (Reachable.construct _)), by decide,
    ((c20_insert_remove _ (Reachable.push _ 2 (Reachable.push _ 1 (Reachable.construct _))) 9).1
      (by decide)).1⟩

end CircularBuffer
